import Mathlib

/-!
# Shallow embedding of the ProKnow IAM synchronization script (`sync.py`)

The script reads desired workspaces, role templates and users from
spreadsheets, compiles permission documents for roles, and reconciles the
three resource kinds against a remote system.

Modelling conventions:
* A spreadsheet cell is a `Cell` (string, boolean, integer, or empty, the
  last standing for Python `None`).
* Python dictionaries are association lists in insertion order; assigning to
  an existing key keeps its position and a new key is appended, matching
  CPython dict semantics (`dictInsert`).
* Python string operations `strip`, `lower`, `upper` are modelled on the
  character list of the string (`trimStr`, `lowerStr`, `upperStr`).
* `fail(...)`/uncaught Python exceptions become `Except` errors; an
  `AttributeError` from calling a string method on a non-string cell is the
  `typeError` case.
* The remote API collaborator is modelled by the `Env` record: the ids it
  assigns to created resources and the `active` flag it gives a newly
  created user (the script never passes `active` to `users.create`).
* `list.sort(key=...)` is a stable sort; `sortEntries` is a stable
  insertion sort, extensionally equal to it.
-/

namespace IamSync

/-- A spreadsheet cell value: string, boolean, number, or empty (`None`). -/
inductive Cell where
  | str (s : String)
  | bool (b : Bool)
  | num (n : Int)
  | null
deriving DecidableEq

/-- Python truthiness of a cell value (`if row[...]:`). -/
def Cell.truthy : Cell → Bool
  | .str s => s ≠ ""
  | .bool b => b
  | .num n => n ≠ 0
  | .null => false

/-- Python `str.upper()` on the character level. -/
def upperStr (s : String) : String := ⟨s.data.map Char.toUpper⟩

/-- Python `str.lower()` on the character level. -/
def lowerStr (s : String) : String := ⟨s.data.map Char.toLower⟩

/-- Python `str.strip()`: drop whitespace from both ends. -/
def trimStr (s : String) : String :=
  ⟨((s.data.dropWhile Char.isWhitespace).reverse.dropWhile Char.isWhitespace).reverse⟩

/-- Python `str.title()` for the single-word field names used by the script:
first character uppercased, the rest lowercased. -/
def titleStr (s : String) : String :=
  match s.data with
  | [] => ""
  | c :: rest => ⟨Char.toUpper c :: rest.map Char.toLower⟩

/-- Python dict assignment `d[k] = v`: overwrite in place, new keys appended. -/
def dictInsert {α : Type} (k : String) (v : α) : List (String × α) → List (String × α)
  | [] => [(k, v)]
  | (k', v') :: rest => if k' = k then (k, v) :: rest else (k', v') :: dictInsert k v rest

/-- Python `k in d` on a dict. -/
def dictMem {α : Type} (k : String) (d : List (String × α)) : Bool :=
  d.any (fun p => p.1 = k)

/-- Python `d[k]` / `d.get(k)` on a dict. -/
def dictFind? {α : Type} (k : String) : List (String × α) → Option α
  | [] => none
  | (k', v) :: rest => if k' = k then some v else dictFind? k rest

/-- `parse_bool` from `sync.py`: booleans pass through, strings compare their
lowercase form against `true`/`yes`, and every other type yields `None`. -/
def parse_bool : Cell → Option Bool
  | .bool b => some b
  | .str s => some (lowerStr s = "true" || lowerStr s = "yes")
  | _ => none

/-! ## Header resolution (`resolve_headers`) -/

/-- Failure cases of `resolve_headers`. -/
inductive HeaderError where
  | duplicate (column : String)
  | missingColumn (key : String)
deriving DecidableEq

/-- The inner loop of `resolve_headers`: the first option key whose expected
header text equals the normalized cell text (the loop `break`s on a match). -/
def findKeyFor (v : String) : List (String × String) → Option String
  | [] => none
  | (k, h) :: rest => if v = h then some k else findKeyFor v rest

/-- The column scan of `resolve_headers`: walk the header row left to right,
normalize string cells, assign the matching option key to the column index,
and fail when a key would be assigned twice. -/
def scanHeaderRow (options : List (String × String)) :
    List Cell → Nat → List (String × Nat) → Except HeaderError (List (String × Nat))
  | [], _, acc => .ok acc
  | c :: rest, i, acc =>
    match c with
    | .str s =>
      let v := lowerStr (trimStr s)
      match findKeyFor v options with
      | some k =>
        if dictMem k acc then .error (.duplicate v)
        else scanHeaderRow options rest (i + 1) (acc ++ [(k, i)])
      | none => scanHeaderRow options rest (i + 1) acc
    | _ => scanHeaderRow options rest (i + 1) acc

/-- The final check of `resolve_headers`: the first requested key that got no
column, in option order. -/
def firstMissingKey (acc : List (String × Nat)) : List (String × String) → Option String
  | [] => none
  | (k, _) :: rest => if dictMem k acc then firstMissingKey acc rest else some k

/-- `resolve_headers` from `sync.py`, over the first row of a sheet. -/
def resolve_headers (row : List Cell) (options : List (String × String)) :
    Except HeaderError (List (String × Nat)) :=
  match scanHeaderRow options row 0 [] with
  | .error e => .error e
  | .ok m =>
    match firstMissingKey m options with
    | some k => .error (.missingColumn k)
    | none => .ok m

/-! ## Desired-state loading -/

/-- Errors raised while loading workspace and user rows.  `typeError` models
an uncaught Python `AttributeError` from calling `strip` on a non-string. -/
inductive LoadError where
  | typeError
  | incompleteRow (field : String) (row : Nat)
  | unknownWorkspace (slug : String) (row : Nat)
  | duplicateAssignment (workspace : String) (firstFile : String) (row : Nat)
  | conflictingRole (newRole : String) (oldRole : String) (firstFile : String) (row : Nat)
deriving DecidableEq

/-- A desired workspace record: normalized slug and derived display name. -/
structure Workspace where
  slug : String
  name : String
deriving DecidableEq

/-- The workspace loading loop of `sync.py` (rows after the header): skip a
row unless both the slug and the name cell are truthy, normalize the slug
(trim + lowercase), derive the display name, and assign into the dict —
a repeated slug silently overwrites the earlier entry. -/
def loadWorkspaces (slugIdx nameIdx : Nat) :
    List (List Cell) → List (String × Workspace) → Except LoadError (List (String × Workspace))
  | [], acc => .ok acc
  | row :: rest, acc =>
    let cSlug := row.getD slugIdx .null
    let cName := row.getD nameIdx .null
    if cSlug.truthy && cName.truthy then
      match cSlug, cName with
      | .str s, .str n =>
        let slug := lowerStr (trimStr s)
        let name := "[" ++ upperStr slug ++ "] " ++ trimStr n
        loadWorkspaces slugIdx nameIdx rest (dictInsert slug ⟨slug, name⟩ acc)
      | _, _ => .error .typeError
    else loadWorkspaces slugIdx nameIdx rest acc

/-- One workspace assignment of a user: role template name, workspace slug,
and the file the row came from. -/
structure Assignment where
  role : String
  workspace : String
  file : String
deriving DecidableEq

/-- A desired user record. `active` is an `Option Bool` because `parse_bool`
yields `None` for non-boolean, non-string cells. -/
structure UserRec where
  name : String
  email : String
  active : Option Bool
  workspaces : List (String × Assignment)
deriving DecidableEq

/-- The `user_row` dict of the user parsing loop: five optional fields. -/
structure UserRow where
  workspace : Option String
  name : Option String
  email : Option String
  role : Option String
  active : Option (Option Bool)
deriving DecidableEq

/-- The starting `user_row = {}` (initialized once per user file). -/
def emptyUserRow : UserRow := ⟨none, none, none, none, none⟩

/-- The cell coercion of the user column loop: `email`/`workspace` cells are
trimmed and lowercased, `active` goes through `parse_bool`, the remaining
columns are trimmed; a string method on a non-string cell raises. -/
def setCol (r : UserRow) (col : String) (c : Cell) : Except LoadError UserRow :=
  if col = "email" then
    match c with
    | .str s => .ok { r with email := some (lowerStr (trimStr s)) }
    | _ => .error .typeError
  else if col = "workspace" then
    match c with
    | .str s => .ok { r with workspace := some (lowerStr (trimStr s)) }
    | _ => .error .typeError
  else if col = "active" then
    .ok { r with active := some (parse_bool c) }
  else if col = "name" then
    match c with
    | .str s => .ok { r with name := some (trimStr s) }
    | _ => .error .typeError
  else if col = "role" then
    match c with
    | .str s => .ok { r with role := some (trimStr s) }
    | _ => .error .typeError
  else .ok r

/-- The column loop of the user parsing code: walk the resolved headers in
order, record present cells into `user_row`, track whether any cell was
present (`row_empty`) and the name of the latest absent column (`row_none`,
which is overwritten at each absent column and never cleared). -/
def parseCols (row : List Cell) :
    List (String × Nat) → UserRow → Bool → Option String →
    Except LoadError (UserRow × Bool × Option String)
  | [], r, empty, missed => .ok (r, empty, missed)
  | (col, idx) :: rest, r, empty, missed =>
    match row.getD idx .null with
    | .null => parseCols row rest r empty (some col)
    | c => do
      let r' ← setCol r col c
      parseCols row rest r' false missed

/-- Lines 400–440 of `sync.py`: validate the referenced workspace, create the
user record if the email is new, reject a duplicate workspace assignment or a
conflicting role template, then append the assignment. -/
def recordRow (file : String) (wsKeys : List String) (users : List (String × UserRec))
    (r : UserRow) (rowNum : Nat) : Except LoadError (List (String × UserRec)) :=
  match r.workspace, r.name, r.email, r.role, r.active with
  | some w, some n, some e, some rl, some a =>
    if ¬ wsKeys.contains w then .error (.unknownWorkspace w rowNum)
    else
      let users' := if dictMem e users then users else dictInsert e ⟨n, e, a, []⟩ users
      match dictFind? e users' with
      | none => .error .typeError
      | some u =>
        match dictFind? w u.workspaces with
        | some a0 => .error (.duplicateAssignment w a0.file rowNum)
        | none =>
          match u.workspaces.find? (fun p => p.2.role ≠ rl) with
          | some p => .error (.conflictingRole rl p.2.role p.2.file rowNum)
          | none =>
            .ok (dictInsert e { u with workspaces := u.workspaces ++ [(w, ⟨rl, w, file⟩)] } users')
  | _, _, _, _, _ => .error .typeError

/-- Processing of one user row: parse the columns, skip an entirely blank
row, fail on a partially populated row naming the `title()`-cased latest
absent column, otherwise record the user data. -/
def userRowStep (file : String) (wsKeys : List String) (headers : List (String × Nat))
    (st : List (String × UserRec) × UserRow) (row : List Cell) (rowNum : Nat) :
    Except LoadError (List (String × UserRec) × UserRow) := do
  let (r', empty, missed) ← parseCols row headers st.2 true none
  if empty then .ok (st.1, r')
  else
    match missed with
    | some col => .error (.incompleteRow (titleStr col) rowNum)
    | none => do
      let users' ← recordRow file wsKeys st.1 r' rowNum
      .ok (users', r')

/-- The row loop over one user sheet, starting at sheet row 2. -/
def loadUserRows (file : String) (wsKeys : List String) (headers : List (String × Nat)) :
    List (List Cell) → (List (String × UserRec) × UserRow) → Nat →
    Except LoadError (List (String × UserRec) × UserRow)
  | [], st, _ => .ok st
  | row :: rest, st, n => do
    let st' ← userRowStep file wsKeys headers st row n
    loadUserRows file wsKeys headers rest st' (n + 1)

/-- The loop over all user files: each file contributes its resolved headers
and data rows, and `user_row` starts out empty for each file. -/
def loadUserFiles (wsKeys : List String) :
    List (String × List (String × Nat) × List (List Cell)) →
    List (String × UserRec) → Except LoadError (List (String × UserRec))
  | [], users => .ok users
  | (file, headers, rows) :: rest, users => do
    let (users', _) ← loadUserRows file wsKeys headers rows (users, emptyUserRow) 2
    loadUserFiles wsKeys rest users'

/-! ## Permission model -/

/-- The per-workspace permission flags (`primary_workspaces.*` and
`other_workspaces.*` paths in the static lookup table). -/
structure WsPerms where
  read_patients : Bool
  manage_access_patients : Bool
  view_phi : Bool
  download_dicom : Bool
  upload_dicom : Bool
  write_patients : Bool
  contour_patients : Bool
  delete_patients : Bool
  read_collections : Bool
  write_collections : Bool
  delete_collections : Bool
  collaborator : Bool
deriving DecidableEq

/-- `other_workspaces_required`: some flag of the subset is `True`. -/
def WsPerms.anyTrue (p : WsPerms) : Bool :=
  p.read_patients || p.manage_access_patients || p.view_phi || p.download_dicom ||
  p.upload_dicom || p.write_patients || p.contour_patients || p.delete_patients ||
  p.read_collections || p.write_collections || p.delete_collections || p.collaborator

/-- The organization-level permission flags (`organization.*` paths). -/
structure OrgPerms where
  create_api_keys : Bool
  manage_access : Bool
  manage_custom_metrics : Bool
  manage_template_metric_sets : Bool
  manage_renaming_rules : Bool
  manage_template_checklists : Bool
  manage_template_structure_sets : Bool
  manage_workspace_algorithms : Bool
  organization_read_patients : Bool
  organization_manage_access_patients : Bool
  organization_view_phi : Bool
  organization_download_dicom : Bool
  organization_upload_dicom : Bool
  organization_write_patients : Bool
  organization_contour_patients : Bool
  organization_delete_patients : Bool
  organization_read_collections : Bool
  organization_write_collections : Bool
  organization_delete_collections : Bool
  organization_collaborator : Bool
deriving DecidableEq

/-- A role template: name plus the three permission groups. -/
structure RoleTemplate where
  name : String
  organization : OrgPerms
  primary_workspaces : WsPerms
  other_workspaces : WsPerms
deriving DecidableEq

/-- One workspace entry of a permission document: remote workspace id plus
the flat per-workspace flags. -/
structure WsEntry where
  id : String
  perms : WsPerms
deriving DecidableEq

/-- A permission document.  `priv`/`userField` model the remote-only
bookkeeping keys `private` and `user`: `none` means the key is absent, and
`userField = some none` means the key is present with value `null`.
Python dict equality of documents is structural equality here. -/
structure PermDoc where
  organization : OrgPerms
  workspaces : List WsEntry
  priv : Option Bool
  userField : Option (Option String)
deriving DecidableEq

/-- Lexicographic comparison of character lists by code point, modelling
Python string comparison (the sort key order of `list.sort`). -/
def charsLe : List Char → List Char → Bool
  | [], _ => true
  | _ :: _, [] => false
  | a :: as, b :: bs =>
    if a.toNat < b.toNat then true
    else if b.toNat < a.toNat then false
    else charsLe as bs

/-- String comparison on the character level. -/
def strLe (a b : String) : Bool := charsLe a.data b.data

/-- Stable insertion into a list sorted by workspace id: the new entry goes
after all entries whose id is not greater. -/
def insertEntry (x : WsEntry) : List WsEntry → List WsEntry
  | [] => [x]
  | y :: ys => if strLe y.id x.id then y :: insertEntry x ys else x :: y :: ys

/-- `workspaces.sort(key=lambda ws: ws["id"])`: a stable sort by id. -/
def sortEntries (l : List WsEntry) : List WsEntry :=
  l.foldl (fun acc y => insertEntry y acc) []

/-! ## Role compilation -/

/-- A remote workspace record as returned by `pk.workspaces.query()`. -/
structure WorkspaceItem where
  id : String
  slug : String
  name : String
deriving DecidableEq

/-- Role compilation for one role (lines 474–508 of `sync.py`): organization
flags from the template, one entry per primary workspace slug in declared
order with the `primary_workspaces` flags, then — if any `other_workspaces`
flag is true — one entry per non-primary desired workspace with the
`other_workspaces` flags, finally sorted by remote id.  Fails when a
referenced slug is unknown or its workspace has no remote item yet. -/
def compileRoleData (tmpl : RoleTemplate) (roleWorkspaces : List String)
    (wss : List (Workspace × Option WorkspaceItem)) : Except String PermDoc := do
  let primary ← roleWorkspaces.mapM (fun slug =>
    match wss.find? (fun p => p.1.slug = slug) with
    | none => Except.error slug
    | some (_, none) => Except.error slug
    | some (_, some it) => Except.ok (⟨it.id, tmpl.primary_workspaces⟩ : WsEntry))
  let entries ←
    if tmpl.other_workspaces.anyTrue then do
      let others ← (wss.filter (fun p => ¬ roleWorkspaces.contains p.1.slug)).mapM
        (fun p =>
          match p.2 with
          | none => Except.error p.1.slug
          | some it => Except.ok (⟨it.id, tmpl.other_workspaces⟩ : WsEntry))
      pure (primary ++ others)
    else
      pure primary
  pure ⟨tmpl.organization, sortEntries entries, none, none⟩

/-- `"[" + "+".join(role_workspaces).upper() + "] " + role_template_name`,
where the template name is taken from the user's last workspace assignment
(all assignments carry the same template after validation). -/
def roleNameOf? (u : UserRec) : Option String :=
  ((u.workspaces.map (fun p => p.2.role)).getLast?).map (fun t =>
    "[" ++ upperStr ("+".intercalate (u.workspaces.map (fun p => p.1))) ++ "] " ++ t)

/-- A compiled role: derived name plus permission document. -/
structure RoleRec where
  name : String
  data : PermDoc
deriving DecidableEq

/-- The role-building loop over the users dict: compile a role per user
group, skipping names already present (role identity is name-keyed). -/
def compileRoles (templates : List (String × RoleTemplate))
    (wss : List (Workspace × Option WorkspaceItem)) :
    List (String × UserRec) → List RoleRec → Except String (List RoleRec)
  | [], acc => .ok acc
  | (_, u) :: rest, acc =>
    match roleNameOf? u with
    | none => .error "user without workspace assignments"
    | some rname =>
      if acc.any (fun r => r.name = rname) then compileRoles templates wss rest acc
      else
        match (u.workspaces.map (fun p => p.2.role)).getLast? with
        | none => .error "user without workspace assignments"
        | some tname =>
          match dictFind? tname templates with
          | none => .error tname
          | some tmpl => do
            let data ← compileRoleData tmpl (u.workspaces.map (fun p => p.1)) wss
            compileRoles templates wss rest (acc ++ [⟨rname, data⟩])

/-! ## Reconciliation -/

/-- Classification of one desired record. -/
inductive Action where
  | create
  | update
  | unchanged
deriving DecidableEq

/-- The association loops of the three passes: walk the remote records and
attach each one to the desired record with the same natural key (a later
remote record with the same key overwrites the attachment).  Remote records
matching no desired key only feed the unknown-resources report, which this
function drops. -/
def assocFst {D I : Type} (dkey : D → String) (ikey : I → String)
    (ds : List (D × Option I)) (remote : List I) : List (D × Option I) :=
  remote.foldl (fun acc it =>
    if acc.any (fun p => dkey p.1 = ikey it) then
      acc.map (fun p => if dkey p.1 = ikey it then (p.1, some it) else p)
    else acc) ds

/-- The last element of a list satisfying a predicate. -/
def lastMatch? {I : Type} (p : I → Bool) : List I → Option I
  | [] => none
  | x :: rest =>
    match lastMatch? p rest with
    | some y => some y
    | none => if p x then some x else none

/-- Workspace classification (lines 187–194): no remote item means create,
a differing display name means update. -/
def classifyWorkspace (w : Workspace × Option WorkspaceItem) : Action :=
  match w.2 with
  | none => .create
  | some it => if it.name ≠ w.1.name then .update else .unchanged

/-- The remote workspace record after the apply step: created with the
desired slug and name, or saved with the updated name, or left alone. -/
def applyWorkspace (fresh : String → String) (w : Workspace × Option WorkspaceItem) :
    WorkspaceItem :=
  match w.2 with
  | none => ⟨fresh w.1.slug, w.1.slug, w.1.name⟩
  | some it => if it.name ≠ w.1.name then { it with name := w.1.name } else it

/-- A remote role record as seen through `pk.roles.query()` + `get()`. -/
structure RoleItem where
  id : String
  name : String
  permissions : PermDoc
deriving DecidableEq

/-- The client-side processing of a matched remote role before comparison:
workspace entries sorted by id, the `private` and `user` keys popped. -/
def roleView (it : RoleItem) : PermDoc :=
  { it.permissions with
    workspaces := sortEntries it.permissions.workspaces, priv := none, userField := none }

/-- Role classification (lines 529–536): compare the compiled document with
the sorted, stripped remote document. -/
def classifyRole (r : RoleRec × Option RoleItem) : Action :=
  match r.2 with
  | none => .create
  | some it => if r.1.data ≠ roleView it then .update else .unchanged

/-- The defaults injected before an update write: `private = False`,
`user = None` (lines 547–548). -/
def injectDefaults (d : PermDoc) : PermDoc :=
  { d with priv := some false, userField := some none }

/-- The remote role record after the apply step.  A created role carries the
remote bookkeeping keys with their defaults; an updated role is saved with
the compiled document plus the injected defaults; an unchanged role keeps
its original server state. -/
def applyRole (fresh : String → String) (r : RoleRec × Option RoleItem) : RoleItem :=
  match r.2 with
  | none => ⟨fresh r.1.name, r.1.name, injectDefaults r.1.data⟩
  | some it =>
    if r.1.data ≠ roleView it then { it with permissions := injectDefaults r.1.data } else it

/-- A remote user record. -/
structure UserItem where
  id : String
  email : String
  name : String
  active : Option Bool
  roleId : String
deriving DecidableEq

/-- The remote id of the role compiled for a user: look the derived role
name up among the applied roles. -/
def userRoleId? (roleItems : List (RoleRec × RoleItem)) (u : UserRec) : Option String :=
  (roleNameOf? u).bind (fun n =>
    (roleItems.find? (fun p => p.1.name = n)).map (fun p => p.2.id))

/-- User classification (lines 572–580): compare name, active flag, and the
id of the resolved role. -/
def classifyUser (u : (UserRec × String) × Option UserItem) : Action :=
  match u.2 with
  | none => .create
  | some it =>
    if u.1.1.name ≠ it.name ∨ u.1.1.active ≠ it.active ∨ u.1.2 ≠ it.roleId then .update
    else .unchanged

/-- The remote user record after the apply step.  `users.create` receives
only email, name and role id; the created record's `active` flag is chosen
by the remote (`createdActive`).  An update writes name, active and role id. -/
def applyUser (fresh : String → String) (createdActive : String → Option Bool)
    (u : (UserRec × String) × Option UserItem) : UserItem :=
  match u.2 with
  | none => ⟨fresh u.1.1.email, u.1.1.email, u.1.1.name, createdActive u.1.1.email, u.1.2⟩
  | some it =>
    if u.1.1.name ≠ it.name ∨ u.1.1.active ≠ it.active ∨ u.1.2 ≠ it.roleId then
      { it with name := u.1.1.name, active := u.1.1.active, roleId := u.1.2 }
    else it

/-! ## The synchronization pipeline -/

/-- The remote system's state: all existing workspaces, roles, and users. -/
structure RemoteState where
  workspaces : List WorkspaceItem
  roles : List RoleItem
  users : List UserItem
deriving DecidableEq

/-- The remote collaborator's behavior on creation: the ids it assigns (per
natural key) and the `active` flag of a newly created user. -/
structure Env where
  freshWs : String → String
  freshRole : String → String
  freshUser : String → String
  createdActive : String → Option Bool

/-- The loaded declarative inputs of one run. -/
structure SyncInputs where
  workspaces : List Workspace
  templates : List (String × RoleTemplate)
  users : List (String × UserRec)

/-- The observable outcome of one run: the classification counts of the
three passes and the remote state left behind. -/
structure Outcome where
  wsCreated : Nat
  wsUpdated : Nat
  roleCreated : Nat
  roleUpdated : Nat
  userCreated : Nat
  userUpdated : Nat
  after : RemoteState
deriving DecidableEq

/-- Workspace pass association. -/
def wsAssocOf (inp : SyncInputs) (remote : RemoteState) :
    List (Workspace × Option WorkspaceItem) :=
  assocFst (fun w => w.slug) (fun it => it.slug)
    (inp.workspaces.map (fun w => (w, none))) remote.workspaces

/-- Workspace pass apply step. -/
def wsAppliedOf (inp : SyncInputs) (env : Env) (remote : RemoteState) :
    List (Workspace × WorkspaceItem) :=
  (wsAssocOf inp remote).map (fun p => (p.1, applyWorkspace env.freshWs p))

/-- The server's workspaces after the run: the applied desired records plus
the untouched unmatched records. -/
def wsAfterOf (inp : SyncInputs) (env : Env) (remote : RemoteState) : List WorkspaceItem :=
  (wsAppliedOf inp env remote).map (fun p => p.2) ++
    remote.workspaces.filter (fun it => ¬ inp.workspaces.any (fun w => w.slug = it.slug))

/-- The compiled roles of the run (after the workspace pass resolved ids). -/
def rolesOf (inp : SyncInputs) (env : Env) (remote : RemoteState) :
    Except String (List RoleRec) :=
  compileRoles inp.templates ((wsAppliedOf inp env remote).map (fun p => (p.1, some p.2)))
    inp.users []

/-- Role pass association. -/
def rAssocOf (roles : List RoleRec) (remote : RemoteState) :
    List (RoleRec × Option RoleItem) :=
  assocFst (fun r => r.name) (fun it => it.name) (roles.map (fun r => (r, none))) remote.roles

/-- Role pass apply step. -/
def rAppliedOf (env : Env) (roles : List RoleRec) (remote : RemoteState) :
    List (RoleRec × RoleItem) :=
  (rAssocOf roles remote).map (fun p => (p.1, applyRole env.freshRole p))

/-- The server's roles after the run. -/
def rAfterOf (env : Env) (roles : List RoleRec) (remote : RemoteState) : List RoleItem :=
  (rAppliedOf env roles remote).map (fun p => p.2) ++
    remote.roles.filter (fun it => ¬ roles.any (fun r => r.name = it.name))

/-- Each user paired with the remote id of its resolved role. -/
def upsOf (inp : SyncInputs) (env : Env) (roles : List RoleRec) (remote : RemoteState) :
    Option (List (UserRec × String)) :=
  inp.users.mapM (fun p =>
    (userRoleId? (rAppliedOf env roles remote) p.2).map (fun rid => (p.2, rid)))

/-- User pass association. -/
def uAssocOf (ups : List (UserRec × String)) (remote : RemoteState) :
    List ((UserRec × String) × Option UserItem) :=
  assocFst (fun u => u.1.email) (fun it => it.email) (ups.map (fun u => (u, none))) remote.users

/-- User pass apply step. -/
def uAppliedOf (env : Env) (ups : List (UserRec × String)) (remote : RemoteState) :
    List ((UserRec × String) × UserItem) :=
  (uAssocOf ups remote).map (fun p => (p.1, applyUser env.freshUser env.createdActive p))

/-- The server's users after the run. -/
def uAfterOf (env : Env) (ups : List (UserRec × String)) (remote : RemoteState) :
    List UserItem :=
  (uAppliedOf env ups remote).map (fun p => p.2) ++
    remote.users.filter (fun it => ¬ ups.any (fun u => u.1.email = it.email))

/-- One full run of the synchronization pipeline: the three passes in
dependency order, each classifying every desired record and applying the
creates and updates.  `none` models an aborted run (role compilation
failure or a user group without a compiled role). -/
def runSync (inp : SyncInputs) (env : Env) (remote : RemoteState) : Option Outcome :=
  let wsActs := (wsAssocOf inp remote).map classifyWorkspace
  match rolesOf inp env remote with
  | .error _ => none
  | .ok roles =>
    let rActs := (rAssocOf roles remote).map classifyRole
    match upsOf inp env roles remote with
    | none => none
    | some ups =>
      let uActs := (uAssocOf ups remote).map classifyUser
      some
        { wsCreated := wsActs.count .create
          wsUpdated := wsActs.count .update
          roleCreated := rActs.count .create
          roleUpdated := rActs.count .update
          userCreated := uActs.count .create
          userUpdated := uActs.count .update
          after :=
            ⟨wsAfterOf inp env remote, rAfterOf env roles remote, uAfterOf env ups remote⟩ }

/-! ## Spec-side definitions used in theorem statements -/

/-- The remote id resolved for a desired workspace slug. -/
def idOf (wss : List (Workspace × WorkspaceItem)) (s : String) : String :=
  ((wss.find? (fun p => p.1.slug = s)).map (fun p => p.2.id)).getD ""

/-- A cell that the workspace loader can process: a string or an empty cell
(a truthy non-string cell would raise an `AttributeError` in the source). -/
def cellStrOk : Cell → Bool
  | .str _ => true
  | .null => true
  | _ => false

/-- Spec-side value of one workspace row: `none` when the row is skipped
(an empty slug or name cell), otherwise the derived workspace record. -/
def wsRowVal? (slugIdx nameIdx : Nat) (row : List Cell) : Option Workspace :=
  match row.getD slugIdx .null, row.getD nameIdx .null with
  | .str s, .str n =>
    if s ≠ "" && n ≠ "" then
      some ⟨lowerStr (trimStr s), "[" ++ upperStr (lowerStr (trimStr s)) ++ "] " ++ trimStr n⟩
    else none
  | _, _ => none

/-- Spec-side lookup: the entry derived from the last row whose normalized
slug is `s` (later rows overwrite earlier ones). -/
def lastWs? (slugIdx nameIdx : Nat) (s : String) : List (List Cell) → Option Workspace
  | [] => none
  | row :: rest =>
    match lastWs? slugIdx nameIdx s rest with
    | some w => some w
    | none =>
      match wsRowVal? slugIdx nameIdx row with
      | some w => if w.slug = s then some w else none
      | none => none

/-- Every workspace assignment of every loaded user carries the same role
template as that user's first assignment. -/
def ConsistentRoles (users : List (String × UserRec)) : Prop :=
  ∀ p ∈ users, ∀ a ∈ p.2.workspaces, ∀ a0, p.2.workspaces.head? = some a0 →
    a.2.role = a0.2.role

/-! ## Sample data shared by witnesses -/

/-- All per-workspace flags false. -/
def noWs : WsPerms := ⟨false, false, false, false, false, false, false, false, false,
  false, false, false⟩

/-- Only `read_patients` set. -/
def readWs : WsPerms := { noWs with read_patients := true }

/-- All organization flags false. -/
def noOrg : OrgPerms := ⟨false, false, false, false, false, false, false, false, false,
  false, false, false, false, false, false, false, false, false, false, false⟩

/-- A role template granting `read_patients` on primary and other workspaces. -/
def tmplStandard : RoleTemplate := ⟨"Standard", noOrg, readWs, readWs⟩

/-- A role template granting `read_patients` only on primary workspaces. -/
def tmplPrimaryOnly : RoleTemplate := ⟨"PrimaryOnly", noOrg, readWs, noWs⟩

/-- A cell the user column loop can coerce without raising: any string or
empty cell, and for columns other than the four string-coerced ones
(`email`, `workspace`, `name`, `role`) any cell at all. -/
def colCellOk (col : String) : Cell → Bool
  | .str _ => true
  | .null => true
  | _ => !(col = "email" || col = "workspace" || col = "name" || col = "role")

/-- Spec-side view of `row_none`: the key of the last resolved column whose
cell is absent. -/
def lastMissing? (row : List Cell) : List (String × Nat) → Option String
  | [] => none
  | c :: rest =>
    match lastMissing? row rest with
    | some k => some k
    | none => if row.getD c.2 .null = .null then some c.1 else none

/-- The primary workspace entry compiled for a slug. -/
def primEntry (wss : List (Workspace × WorkspaceItem)) (tmpl : RoleTemplate)
    (s : String) : WsEntry :=
  ⟨idOf wss s, tmpl.primary_workspaces⟩

/-- The non-primary entries compiled when any other-workspaces flag is set. -/
def otherEntries (wss : List (Workspace × WorkspaceItem)) (tmpl : RoleTemplate)
    (P : List String) : List WsEntry :=
  (wss.filter (fun p => ¬ P.contains p.1.slug)).map
    (fun p => ⟨p.2.id, tmpl.other_workspaces⟩)

/-- Three desired workspaces with resolved remote items, used by witnesses. -/
def sampleWss : List (Workspace × WorkspaceItem) :=
  [(⟨"a", "[A] Apple"⟩, ⟨"1", "a", "[A] Apple"⟩),
   (⟨"b", "[B] Bee"⟩, ⟨"2", "b", "[B] Bee"⟩),
   (⟨"c", "[C] Sea"⟩, ⟨"3", "c", "[C] Sea"⟩)]

/-- The permission document compiled from `sampleWss` with primary `["a"]`
and the `tmplStandard` template. -/
def sampleDoc : PermDoc :=
  ⟨noOrg, [⟨"1", readWs⟩, ⟨"2", readWs⟩, ⟨"3", readWs⟩], none, none⟩

/-- A compiled role's document: entries already sorted, bookkeeping keys
absent. -/
def SortedData (r : RoleRec) : Prop :=
  sortEntries r.data.workspaces = r.data.workspaces ∧
    r.data.priv = none ∧ r.data.userField = none

def wsAlpha : Workspace := ⟨"alpha", "Alpha"⟩

def userAlice : UserRec :=
  ⟨"Alice", "alice@x.com", some false, [("alpha", ⟨"Standard", "alpha", "users.xlsx"⟩)]⟩

def inpC1 : SyncInputs :=
  ⟨[wsAlpha], [("Standard", tmplPrimaryOnly)], [("g1", userAlice)]⟩

/-- A remote that activates newly created users. -/
def envActiveTrue : Env :=
  ⟨fun s => "W-" ++ s, fun s => "R-" ++ s, fun s => "U-" ++ s, fun _ => some true⟩

/-- A remote whose newly created users come back inactive. -/
def envActiveFalse : Env :=
  ⟨fun s => "W-" ++ s, fun s => "R-" ++ s, fun s => "U-" ++ s, fun _ => some false⟩

def emptyRemote : RemoteState := ⟨[], [], []⟩

/-! ## String helper lemmas -/

theorem upperStr_append (a b : String) : upperStr (a ++ b) = upperStr a ++ upperStr b := by
  apply String.ext
  simp [upperStr, String.data_append]

theorem intercalate_go_eq (s : String) (x : String) (xs : List String) :
    ∀ acc, String.intercalate.go acc s (x :: xs) =
      acc ++ s ++ String.intercalate.go x s xs := by
  induction xs generalizing x with
  | nil => intro acc; simp [String.intercalate.go]
  | cons y ys ih =>
    intro acc
    show String.intercalate.go (acc ++ s ++ x) s (y :: ys) = _
    rw [ih y (acc ++ s ++ x), ih y x]
    apply String.ext
    simp [String.data_append]

theorem intercalate_cons₂ (s a b : String) (t : List String) :
    s.intercalate (a :: b :: t) = a ++ s ++ s.intercalate (b :: t) := by
  show String.intercalate.go a s (b :: t) = _
  rw [intercalate_go_eq s b t a]
  rfl

theorem upperStr_intercalate (l : List String) :
    upperStr ("+".intercalate l) = "+".intercalate (l.map upperStr) := by
  induction l with
  | nil => rfl
  | cons a t ih =>
    cases t with
    | nil => rfl
    | cons b t' =>
      rw [intercalate_cons₂, upperStr_append, upperStr_append, ih]
      show _ = "+".intercalate (upperStr a :: upperStr b :: t'.map upperStr)
      rw [intercalate_cons₂]
      rfl

/-! ## Dict lemmas -/

theorem dictFind?_insert {α : Type} (k s : String) (v : α) (d : List (String × α)) :
    dictFind? s (dictInsert k v d) = if k = s then some v else dictFind? s d := by
  induction d with
  | nil => simp [dictInsert, dictFind?]
  | cons p rest ih =>
    by_cases h : p.1 = k
    · simp only [dictInsert, h, if_pos rfl]
      by_cases hs : k = s
      · simp [dictFind?, hs]
      · simp [dictFind?, hs, h]
    · simp only [dictInsert, if_neg h]
      by_cases hs : p.1 = s
      · have : ¬ k = s := fun hk => h (hs ▸ hk ▸ rfl)
        simp [dictFind?, hs, this]
      · simp [dictFind?, hs, ih]

theorem dictMem_iff {α : Type} (k : String) (d : List (String × α)) :
    dictMem k d = true ↔ k ∈ d.map Prod.fst := by
  induction d with
  | nil => simp [dictMem]
  | cons p rest ih =>
    simp only [dictMem, List.any_cons, Bool.or_eq_true_iff, List.map_cons, List.mem_cons]
    rw [show ((rest.any fun p => decide (p.1 = k)) = true) = (dictMem k rest = true) from rfl, ih]
    constructor
    · rintro (h | h)
      · exact Or.inl (by simpa using (by simpa using h : p.1 = k).symm)
      · exact Or.inr h
    · rintro (h | h)
      · exact Or.inl (by simp [h])
      · exact Or.inr h

theorem keys_dictInsert {α : Type} (k : String) (v : α) (d : List (String × α)) :
    (dictInsert k v d).map Prod.fst =
      if dictMem k d = true then d.map Prod.fst else d.map Prod.fst ++ [k] := by
  induction d with
  | nil => simp [dictInsert, dictMem]
  | cons p rest ih =>
    by_cases hp : p.1 = k
    · simp [dictInsert, hp, dictMem, List.any_cons]
    · have hmem : dictMem k (p :: rest) = dictMem k rest := by
        simp [dictMem, List.any_cons, hp]
      simp only [dictInsert, if_neg hp, List.map_cons, ih, hmem]
      by_cases hm : dictMem k rest = true
      · simp [hm]
      · simp [hm]

theorem dictInsert_keys_nodup {α : Type} (k : String) (v : α) (d : List (String × α))
    (h : (d.map Prod.fst).Nodup) : ((dictInsert k v d).map Prod.fst).Nodup := by
  rw [keys_dictInsert]
  by_cases hm : dictMem k d = true
  · simpa [hm] using h
  · simp only [hm, if_false, Bool.false_eq_true]
    refine List.Nodup.append h (by simp) ?_
    intro x hx hx'
    rcases List.mem_singleton.mp hx' with rfl
    exact hm ((dictMem_iff x d).mpr hx)

theorem dictFind?_isSome_of_mem {α : Type} {k : String} {d : List (String × α)}
    (h : dictMem k d = true) : ∃ v, dictFind? k d = some v := by
  induction d with
  | nil => simp [dictMem] at h
  | cons p rest ih =>
    by_cases hp : p.1 = k
    · exact ⟨p.2, by simp [dictFind?, hp]⟩
    · have h' : dictMem k rest = true := by
        simpa [dictMem, List.any_cons, hp] using h
      rcases ih h' with ⟨v, hv⟩
      exact ⟨v, by simp [dictFind?, hp, hv]⟩

theorem dictMem_of_find?_some {α : Type} {k : String} {d : List (String × α)} {v : α}
    (h : dictFind? k d = some v) : dictMem k d = true := by
  induction d with
  | nil => simp [dictFind?] at h
  | cons p rest ih =>
    by_cases hp : p.1 = k
    · simp [dictMem, List.any_cons, hp]
    · simp only [dictFind?, if_neg hp] at h
      show (p :: rest).any (fun q => q.1 = k) = true
      simp only [List.any_cons, Bool.or_eq_true_iff]
      exact Or.inr (ih h)

/-! ## Sorting lemmas -/

theorem charsLe_total : ∀ (a b : List Char), charsLe a b = true ∨ charsLe b a = true := by
  intro a
  induction a with
  | nil => intro b; exact Or.inl rfl
  | cons x xs ih =>
    intro b
    cases b with
    | nil => exact Or.inr rfl
    | cons y ys =>
      by_cases h1 : x.toNat < y.toNat
      · exact Or.inl (by simp [charsLe, h1])
      · by_cases h2 : y.toNat < x.toNat
        · exact Or.inr (by simp [charsLe, h2, h1])
        · rcases ih ys with h | h
          · exact Or.inl (by simp [charsLe, h1, h2, h])
          · exact Or.inr (by simp [charsLe, h1, h2, h])

theorem charsLe_trans : ∀ (a b c : List Char),
    charsLe a b = true → charsLe b c = true → charsLe a c = true := by
  intro a
  induction a with
  | nil => intro b c _ _; rfl
  | cons x xs ih =>
    intro b c hab hbc
    cases b with
    | nil => simp [charsLe] at hab
    | cons y ys =>
      cases c with
      | nil => simp [charsLe] at hbc
      | cons z zs =>
        simp only [charsLe] at hab hbc ⊢
        by_cases h1 : x.toNat < y.toNat
        · by_cases h2 : y.toNat < z.toNat
          · simp [show x.toNat < z.toNat by omega]
          · rw [if_neg h2] at hbc
            by_cases h3 : z.toNat < y.toNat
            · rw [if_pos h3] at hbc; cases hbc
            · simp [show x.toNat < z.toNat by omega]
        · rw [if_neg h1] at hab
          by_cases h4 : y.toNat < x.toNat
          · rw [if_pos h4] at hab; cases hab
          · rw [if_neg h4] at hab
            by_cases h2 : y.toNat < z.toNat
            · simp [show x.toNat < z.toNat by omega]
            · rw [if_neg h2] at hbc
              by_cases h3 : z.toNat < y.toNat
              · rw [if_pos h3] at hbc; cases hbc
              · rw [if_neg h3] at hbc
                have hx1 : ¬ x.toNat < z.toNat := by omega
                have hx2 : ¬ z.toNat < x.toNat := by omega
                rw [if_neg hx1, if_neg hx2]
                exact ih ys zs hab hbc

theorem strLe_total (a b : String) : strLe a b = true ∨ strLe b a = true :=
  charsLe_total a.data b.data

theorem strLe_trans {a b c : String} (h1 : strLe a b = true) (h2 : strLe b c = true) :
    strLe a c = true :=
  charsLe_trans a.data b.data c.data h1 h2

theorem insertEntry_perm (x : WsEntry) (l : List WsEntry) :
    (insertEntry x l).Perm (x :: l) := by
  induction l with
  | nil => simp [insertEntry]
  | cons y ys ih =>
    by_cases h : strLe y.id x.id = true
    · simp only [insertEntry, if_pos h]
      exact (ih.cons y).trans (List.Perm.swap x y ys)
    · simp only [insertEntry, if_neg h]
      exact List.Perm.refl _

theorem sortEntries_perm (l : List WsEntry) : (sortEntries l).Perm l := by
  have h : ∀ (acc : List WsEntry),
      (l.foldl (fun acc y => insertEntry y acc) acc).Perm (acc ++ l) := by
    induction l with
    | nil => intro acc; simp
    | cons y t ih =>
      intro acc
      have h1 := ih (insertEntry y acc)
      have h2 := (insertEntry_perm y acc).append_right t
      have h3 : ((y :: acc) ++ t).Perm (acc ++ y :: t) := List.perm_middle.symm
      exact (h1.trans h2).trans h3
  simpa using h []

theorem mem_insertEntry {x e : WsEntry} {l : List WsEntry}
    (h : e ∈ insertEntry x l) : e = x ∨ e ∈ l := by
  have := (insertEntry_perm x l).mem_iff.mp h
  simpa using this

theorem insertEntry_sorted (x : WsEntry) (l : List WsEntry)
    (h : l.Pairwise (fun a b => strLe a.id b.id = true)) :
    (insertEntry x l).Pairwise (fun a b => strLe a.id b.id = true) := by
  induction l with
  | nil => simp [insertEntry]
  | cons y ys ih =>
    rcases List.pairwise_cons.mp h with ⟨hy, hys⟩
    by_cases hle : strLe y.id x.id = true
    · simp only [insertEntry, if_pos hle]
      refine List.pairwise_cons.mpr ⟨?_, ih hys⟩
      intro e he
      rcases mem_insertEntry he with rfl | he'
      · exact hle
      · exact hy e he'
    · simp only [insertEntry, if_neg hle]
      have hxy : strLe x.id y.id = true := (strLe_total x.id y.id).resolve_right hle
      refine List.pairwise_cons.mpr ⟨?_, h⟩
      intro e he
      rcases List.mem_cons.mp he with rfl | he'
      · exact hxy
      · exact strLe_trans hxy (hy e he')

theorem sortEntries_sorted (l : List WsEntry) :
    (sortEntries l).Pairwise (fun a b => strLe a.id b.id = true) := by
  have h : ∀ (acc : List WsEntry), acc.Pairwise (fun a b => strLe a.id b.id = true) →
      (l.foldl (fun acc y => insertEntry y acc) acc).Pairwise
        (fun a b => strLe a.id b.id = true) := by
    induction l with
    | nil => intro acc hacc; simpa using hacc
    | cons y t ih => intro acc hacc; exact ih (insertEntry y acc) (insertEntry_sorted y acc hacc)
  exact h [] (by simp)

theorem insertEntry_of_all_le (x : WsEntry) (l : List WsEntry)
    (h : ∀ y ∈ l, strLe y.id x.id = true) : insertEntry x l = l ++ [x] := by
  induction l with
  | nil => rfl
  | cons y ys ih =>
    simp only [insertEntry, if_pos (h y (List.mem_cons_self y ys))]
    rw [ih (fun z hz => h z (List.mem_cons_of_mem y hz))]
    rfl

theorem sortEntries_append_single (l : List WsEntry) (x : WsEntry) :
    sortEntries (l ++ [x]) = insertEntry x (sortEntries l) := by
  simp [sortEntries, List.foldl_append]

theorem sortEntries_of_sorted (l : List WsEntry)
    (h : l.Pairwise (fun a b => strLe a.id b.id = true)) : sortEntries l = l := by
  induction l using List.reverseRecOn with
  | nil => rfl
  | append_singleton l x ih =>
    rcases List.pairwise_append.mp h with ⟨hl, _, hcross⟩
    rw [sortEntries_append_single, ih hl]
    exact insertEntry_of_all_le x l (fun y hy => hcross y hy x (by simp))

theorem sortEntries_idem (l : List WsEntry) :
    sortEntries (sortEntries l) = sortEntries l :=
  sortEntries_of_sorted (sortEntries l) (sortEntries_sorted l)

/-! ## Association lemmas -/

theorem lastMatch?_prop {I : Type} {p : I → Bool} {l : List I} {x : I}
    (h : lastMatch? p l = some x) : p x = true := by
  induction l with
  | nil => simp [lastMatch?] at h
  | cons y ys ih =>
    simp only [lastMatch?] at h
    cases hm : lastMatch? p ys with
    | some z => rw [hm] at h; exact ih (hm.trans (by injection h with h'; rw [h']))
    | none =>
      rw [hm] at h
      by_cases hp : p y = true
      · rw [if_pos hp] at h; injection h with h'; exact h' ▸ hp
      · rw [if_neg hp] at h; cases h

theorem lastMatch?_cons_neg {I : Type} {p : I → Bool} {x : I} (l : List I)
    (h : p x = false) : lastMatch? p (x :: l) = lastMatch? p l := by
  simp only [lastMatch?]
  cases lastMatch? p l with
  | some y => rfl
  | none => simp [h]

theorem lastMatch?_cons_pos {I : Type} {p : I → Bool} {x : I} (l : List I)
    (h : p x = true) :
    lastMatch? p (x :: l) = some ((lastMatch? p l).getD x) := by
  simp only [lastMatch?]
  cases lastMatch? p l with
  | some y => rfl
  | none => simp [h]

theorem lastMatch?_eq_none_iff {I : Type} (p : I → Bool) (l : List I) :
    lastMatch? p l = none ↔ ∀ x ∈ l, p x = false := by
  induction l with
  | nil => simp [lastMatch?]
  | cons y ys ih =>
    by_cases hp : p y = true
    · rw [lastMatch?_cons_pos ys hp]
      simp only [reduceCtorEq, false_iff]
      intro hall
      rw [hall y (List.mem_cons_self y ys)] at hp; cases hp
    · rw [lastMatch?_cons_neg ys (Bool.eq_false_iff.mpr hp), ih]
      constructor
      · intro hall x hx
        rcases List.mem_cons.mp hx with rfl | hx'
        · exact Bool.eq_false_iff.mpr hp
        · exact hall x hx'
      · intro hall x hx
        exact hall x (List.mem_cons_of_mem y hx)

theorem lastMatch?_append {I : Type} (p : I → Bool) (l₁ l₂ : List I) :
    lastMatch? p (l₁ ++ l₂) =
      match lastMatch? p l₂ with
      | some y => some y
      | none => lastMatch? p l₁ := by
  induction l₁ with
  | nil => cases h : lastMatch? p l₂ <;> simp [lastMatch?, h]
  | cons x xs ih =>
    show lastMatch? p (x :: (xs ++ l₂)) = _
    by_cases hp : p x = true
    · rw [lastMatch?_cons_pos (xs ++ l₂) hp, ih, lastMatch?_cons_pos xs hp]
      cases lastMatch? p l₂ <;> cases lastMatch? p xs <;> rfl
    · rw [lastMatch?_cons_neg (xs ++ l₂) (Bool.eq_false_iff.mpr hp), ih,
        lastMatch?_cons_neg xs (Bool.eq_false_iff.mpr hp)]

theorem assocFst_eq_map {D I : Type} (dkey : D → String) (ikey : I → String)
    (xs : List (D × Option I)) (remote : List I) :
    assocFst dkey ikey xs remote = xs.map (fun p =>
      match lastMatch? (fun it => dkey p.1 = ikey it) remote with
      | some it => (p.1, some it)
      | none => p) := by
  induction remote generalizing xs with
  | nil =>
    simp [assocFst, lastMatch?]
  | cons it rest ih =>
    show assocFst dkey ikey
        (if xs.any (fun p => dkey p.1 = ikey it) then
          xs.map (fun p => if dkey p.1 = ikey it then (p.1, some it) else p)
         else xs) rest = _
    by_cases hany : xs.any (fun p => decide (dkey p.1 = ikey it)) = true
    · rw [if_pos hany, ih, List.map_map]
      apply List.map_congr_left
      intro p _
      simp only [Function.comp_apply]
      by_cases hit : dkey p.1 = ikey it
      · rw [if_pos hit, lastMatch?_cons_pos rest (by simp [hit])]
        cases hlm : lastMatch? (fun x => decide (dkey p.1 = ikey x)) rest with
        | some z => rfl
        | none => rfl
      · rw [if_neg hit, lastMatch?_cons_neg rest (by simp [hit])]
    · rw [if_neg hany, ih]
      apply List.map_congr_left
      intro p hp
      have hnot : ¬ (dkey p.1 = ikey it) := by
        intro hc
        exact hany (List.any_eq_true.mpr ⟨p, hp, by simp [hc]⟩)
      rw [lastMatch?_cons_neg rest (by simp [hnot])]

theorem lastMatch?_payload {D I : Type} (dkey : D → String) (ikey : I → String)
    (pairs : List (D × I))
    (halign : ∀ q ∈ pairs, ikey q.2 = dkey q.1)
    (hnd : (pairs.map (fun q => dkey q.1)).Nodup) :
    ∀ q ∈ pairs,
      lastMatch? (fun it => dkey q.1 = ikey it) (pairs.map (fun q => q.2)) = some q.2 := by
  induction pairs with
  | nil => intro q hq; simp at hq
  | cons q0 rest ih =>
    intro q hq
    simp only [List.map_cons, List.nodup_cons] at hnd
    rcases List.mem_cons.mp hq with rfl | hq'
    · have hnone : lastMatch? (fun it => decide (dkey q.1 = ikey it))
          (rest.map (fun q => q.2)) = none := by
        rw [lastMatch?_eq_none_iff]
        intro i hi
        rcases List.mem_map.mp hi with ⟨q', hq', rfl⟩
        have h1 : ikey q'.2 = dkey q'.1 := halign q' (List.mem_cons_of_mem _ hq')
        have h2 : dkey q.1 ≠ dkey q'.1 := by
          intro hc
          exact hnd.1 (hc ▸ List.mem_map.mpr ⟨q', hq', rfl⟩)
        simp only [decide_eq_false_iff_not]
        rw [h1]
        exact h2
      have htrue : (decide (dkey q.1 = ikey q.2)) = true := by
        simp [halign q (List.mem_cons_self _ rest)]
      show lastMatch? _ (q.2 :: rest.map (fun q => q.2)) = some q.2
      rw [@lastMatch?_cons_pos I (fun it => decide (dkey q.1 = ikey it)) q.2
        (rest.map (fun q => q.2)) htrue, hnone]
      rfl
    · have hlast := ih (fun q' hq'' => halign q' (List.mem_cons_of_mem _ hq'')) hnd.2 q hq'
      show lastMatch? _ (q0.2 :: rest.map (fun q => q.2)) = some q.2
      simp only [lastMatch?, hlast]

/-- The key fact driving the idempotence theorem: associating desired
records against a remote list consisting of one aligned record per desired
key (all keys distinct) plus records with foreign keys attaches exactly the
aligned records. -/
theorem assocFst_payload {D I : Type} (dkey : D → String) (ikey : I → String)
    (pairs : List (D × I)) (rest : List I)
    (halign : ∀ q ∈ pairs, ikey q.2 = dkey q.1)
    (hnd : (pairs.map (fun q => dkey q.1)).Nodup)
    (hrest : ∀ it ∈ rest, ∀ q ∈ pairs, ikey it ≠ dkey q.1) :
    assocFst dkey ikey (pairs.map (fun q => (q.1, (none : Option I))))
        (pairs.map (fun q => q.2) ++ rest)
      = pairs.map (fun q => (q.1, some q.2)) := by
  rw [assocFst_eq_map, List.map_map]
  apply List.map_congr_left
  intro q hq
  have hrest' : lastMatch? (fun it => decide (dkey q.1 = ikey it)) rest = none := by
    rw [lastMatch?_eq_none_iff]
    intro i hi
    have hne := hrest i hi q hq
    simp only [decide_eq_false_iff_not]
    exact fun hc => hne hc.symm
  have hpay := lastMatch?_payload dkey ikey pairs halign hnd q hq
  rw [Function.comp]
  show (match lastMatch? (fun it => decide (dkey q.1 = ikey it))
      (pairs.map (fun q => q.2) ++ rest) with
    | some it => (q.1, some it)
    | none => (q.1, (none : Option I))) = (q.1, some q.2)
  rw [lastMatch?_append, hrest', hpay]

theorem mem_of_getLast?_eq_some {α : Type} {l : List α} {a : α}
    (h : l.getLast? = some a) : a ∈ l := by
  induction l with
  | nil => simp at h
  | cons x xs ih =>
    cases xs with
    | nil =>
      simp only [List.getLast?_singleton, Option.some.injEq] at h
      simp [h]
    | cons y ys =>
      rw [List.getLast?_cons_cons] at h
      exact List.mem_cons_of_mem x (ih h)

/-! ## C6: active-flag coercion -/

/-- **C6 counterexample.** The claim says parsing the `active` cell yields
`false` for a numeric cell; `parse_bool` actually yields Python `None`. -/
theorem c6_counterexample :
    parse_bool (.num 1) = none ∧ parse_bool (.num 1) ≠ some false := by
  exact ⟨rfl, by decide⟩

/-- **C6 (amended).** `parse_bool` yields `true` exactly for boolean `True`
or a string whose lowercase form is `"true"` or `"yes"`; it yields `false`
for every other boolean or string; and it yields `None` — not `false` — for
any non-boolean, non-string value, never raising an error. -/
theorem c6_active_flag_coercion :
    (∀ b, parse_bool (.bool b) = some b)
    ∧ (∀ s, parse_bool (.str s) = some (lowerStr s = "true" || lowerStr s = "yes"))
    ∧ (∀ n, parse_bool (.num n) = none)
    ∧ parse_bool .null = none
    ∧ (∀ c, parse_bool c = some true ↔
        (c = .bool true ∨ ∃ s, c = .str s ∧ (lowerStr s = "true" ∨ lowerStr s = "yes"))) := by
  refine ⟨fun b => rfl, fun s => rfl, fun n => rfl, rfl, ?_⟩
  intro c
  cases c with
  | str s =>
    simp only [parse_bool, Option.some.injEq, reduceCtorEq, false_or]
    constructor
    · intro h
      refine ⟨s, rfl, ?_⟩
      have := h.symm
      rcases Bool.or_eq_true_iff.mp this.symm with h1 | h1
      · exact Or.inl (by simpa using h1)
      · exact Or.inr (by simpa using h1)
    · rintro ⟨s', hs', h1⟩
      cases hs'
      rcases h1 with h1 | h1 <;> simp [h1]
  | bool b => cases b <;> simp [parse_bool]
  | num n => simp [parse_bool]
  | null => simp [parse_bool]

/-! ## C8: compiled role naming -/

/-- **C8.** The compiled role name is `[` + the user's primary workspace
slugs uppercased and joined by `+` in declared order + `] ` + the role
template name; in particular workspaces `["b","a"]` with template
`"Standard"` give `"[B+A] Standard"`. -/
theorem c8_role_naming :
    (∀ (u : UserRec) (t : String), u.workspaces ≠ [] →
      (∀ a ∈ u.workspaces, a.2.role = t) →
      roleNameOf? u = some ("[" ++
        "+".intercalate ((u.workspaces.map (fun p => p.1)).map upperStr) ++ "] " ++ t))
    ∧ roleNameOf?
        ⟨"Jane", "jane@x.com", some true,
          [("b", ⟨"Standard", "b", "f.xlsx"⟩), ("a", ⟨"Standard", "a", "f.xlsx"⟩)]⟩
      = some "[B+A] Standard" := by
  constructor
  · intro u t hne hall
    have hmapne : u.workspaces.map (fun p => p.2.role) ≠ [] := by
      simpa using hne
    cases hl : (u.workspaces.map (fun p => p.2.role)).getLast? with
    | none => exact absurd (List.getLast?_eq_none_iff.mp hl) hmapne
    | some r =>
      have hr : r = t := by
        rcases List.mem_map.mp (mem_of_getLast?_eq_some hl) with ⟨a, ha, rfl⟩
        exact hall a ha
      rw [roleNameOf?, hl, hr]
      simp only [Option.map_some', Option.some.injEq, upperStr_intercalate]
  · rfl

/-- **C8 witness.** The general clause applied to the concrete user group of
the claim. -/
theorem c8_witness :
    roleNameOf?
        ⟨"Jane", "jane@x.com", some true,
          [("b", ⟨"Standard", "b", "f.xlsx"⟩), ("a", ⟨"Standard", "a", "f.xlsx"⟩)]⟩
      = some ("[" ++ "+".intercalate (["b", "a"].map upperStr) ++ "] " ++ "Standard") :=
  c8_role_naming.1
    ⟨"Jane", "jane@x.com", some true,
      [("b", ⟨"Standard", "b", "f.xlsx"⟩), ("a", ⟨"Standard", "a", "f.xlsx"⟩)]⟩
    "Standard" (by simp) (by decide)

/-! ## C3: role equality stripping -/

/-- **C3.** A remote role whose permission document is deep-equal to the
desired document apart from extra `private`/`user` fields classifies as
`Unchanged` (the fields are stripped and the workspace entries sorted by id
before comparison); and an update write re-injects the two fields with
defaults `private = false`, `user = null`. -/
theorem c3_role_equality_stripping :
    (∀ (r : RoleRec) (it : RoleItem) (b : Bool) (uv : Option String),
      r.data.priv = none → r.data.userField = none →
      r.data.workspaces.Pairwise (fun a c => strLe a.id c.id = true) →
      it.permissions = { r.data with priv := some b, userField := some uv } →
      classifyRole (r, some it) = .unchanged)
    ∧ (∀ (fresh : String → String) (r : RoleRec) (it : RoleItem),
      classifyRole (r, some it) = .update →
      (applyRole fresh (r, some it)).permissions =
        { r.data with priv := some false, userField := some none }) := by
  constructor
  · intro r it b uv hpriv huser hsorted hperm
    have hview : roleView it = r.data := by
      simp only [roleView, hperm]
      rw [sortEntries_of_sorted r.data.workspaces hsorted, ← hpriv, ← huser]
    show (if r.data ≠ roleView it then Action.update else Action.unchanged) = Action.unchanged
    rw [hview]
    simp
  · intro fresh r it hupd
    by_cases hne : r.data ≠ roleView it
    · show (if r.data ≠ roleView it then
          { it with permissions := injectDefaults r.data } else it).permissions = _
      rw [if_pos hne]
      rfl
    · exact absurd hupd (by
        show (if r.data ≠ roleView it then Action.update else Action.unchanged) ≠ Action.update
        rw [if_neg hne]
        simp)

/-- **C3 witness.** Both clauses applied to a concrete role and remote item
that differ only in the bookkeeping fields. -/
theorem c3_witness :
    classifyRole (⟨"[A] Standard", ⟨noOrg, [⟨"id1", readWs⟩], none, none⟩⟩,
        some ⟨"r1", "[A] Standard", ⟨noOrg, [⟨"id1", readWs⟩], some true, some (some "u")⟩⟩)
      = .unchanged ∧
    (applyRole (fun _ => "rid") (⟨"[A] Standard", ⟨noOrg, [⟨"id1", readWs⟩], none, none⟩⟩,
        some ⟨"r1", "[A] Standard", ⟨noOrg, [⟨"id2", readWs⟩], none, none⟩⟩)).permissions =
      ⟨noOrg, [⟨"id1", readWs⟩], some false, some none⟩ := by
  constructor
  · exact c3_role_equality_stripping.1
      ⟨"[A] Standard", ⟨noOrg, [⟨"id1", readWs⟩], none, none⟩⟩
      ⟨"r1", "[A] Standard", ⟨noOrg, [⟨"id1", readWs⟩], some true, some (some "u")⟩⟩
      true (some "u") rfl rfl (by simp) rfl
  · exact c3_role_equality_stripping.2 (fun _ => "rid")
      ⟨"[A] Standard", ⟨noOrg, [⟨"id1", readWs⟩], none, none⟩⟩
      ⟨"r1", "[A] Standard", ⟨noOrg, [⟨"id2", readWs⟩], none, none⟩⟩
      (by decide)

/-! ## C4: header resolution -/

theorem scan_acc_mem {options : List (String × String)} :
    ∀ {row : List Cell} {i : Nat} {acc m : List (String × Nat)},
      scanHeaderRow options row i acc = .ok m → ∀ e ∈ acc, e ∈ m := by
  intro row
  induction row with
  | nil =>
    intro i acc m h e he
    simp only [scanHeaderRow] at h
    cases h
    exact he
  | cons c rest ih =>
    intro i acc m h e he
    cases c with
    | str s =>
      simp only [scanHeaderRow] at h
      cases hf : findKeyFor (lowerStr (trimStr s)) options with
      | some k =>
        rw [hf] at h
        dsimp only at h
        by_cases hd : dictMem k acc = true
        · rw [if_pos hd] at h; cases h
        · rw [if_neg hd] at h
          exact ih h e (List.mem_append_left _ he)
      | none =>
        rw [hf] at h
        dsimp only at h
        exact ih h e he
    | bool b => exact ih h e he
    | num n => exact ih h e he
    | null => exact ih h e he

theorem scan_keys_nodup {options : List (String × String)} :
    ∀ {row : List Cell} {i : Nat} {acc m : List (String × Nat)},
      scanHeaderRow options row i acc = .ok m →
      (acc.map Prod.fst).Nodup → (m.map Prod.fst).Nodup := by
  intro row
  induction row with
  | nil =>
    intro i acc m h hacc
    simp only [scanHeaderRow] at h
    cases h
    exact hacc
  | cons c rest ih =>
    intro i acc m h hacc
    cases c with
    | str s =>
      simp only [scanHeaderRow] at h
      cases hf : findKeyFor (lowerStr (trimStr s)) options with
      | some k =>
        rw [hf] at h
        dsimp only at h
        by_cases hd : dictMem k acc = true
        · rw [if_pos hd] at h; cases h
        · rw [if_neg hd] at h
          refine ih h ?_
          rw [List.map_append]
          refine List.Nodup.append hacc (by simp) ?_
          intro x hx hx'
          rcases List.mem_singleton.mp (by simpa using hx') with rfl
          exact hd ((dictMem_iff x acc).mpr hx)
      | none =>
        rw [hf] at h
        dsimp only at h
        exact ih h hacc
    | bool b => exact ih h hacc
    | num n => exact ih h hacc
    | null => exact ih h hacc

theorem scan_sound {options : List (String × String)} :
    ∀ {row : List Cell} {i : Nat} {acc m : List (String × Nat)},
      scanHeaderRow options row i acc = .ok m →
      ∀ k j, (k, j) ∈ m → (k, j) ∈ acc ∨ ∃ jr s, j = i + jr ∧
        row.get? jr = some (Cell.str s) ∧ findKeyFor (lowerStr (trimStr s)) options = some k := by
  intro row
  induction row with
  | nil =>
    intro i acc m h k j hm
    simp only [scanHeaderRow] at h
    cases h
    exact Or.inl hm
  | cons c rest ih =>
    intro i acc m h k j hm
    have shift : ((k, j) ∈ acc ∨ ∃ jr s, j = (i + 1) + jr ∧
        rest.get? jr = some (Cell.str s) ∧ findKeyFor (lowerStr (trimStr s)) options = some k) →
        ((k, j) ∈ acc ∨ ∃ jr s, j = i + jr ∧
          (c :: rest).get? jr = some (Cell.str s) ∧
          findKeyFor (lowerStr (trimStr s)) options = some k) := by
      rintro (h1 | ⟨jr, s, rfl, hg, hf⟩)
      · exact Or.inl h1
      · exact Or.inr ⟨jr + 1, s, by omega, by simpa using hg, hf⟩
    cases c with
    | str s =>
      simp only [scanHeaderRow] at h
      cases hf : findKeyFor (lowerStr (trimStr s)) options with
      | some k' =>
        rw [hf] at h
        dsimp only at h
        by_cases hd : dictMem k' acc = true
        · rw [if_pos hd] at h; cases h
        · rw [if_neg hd] at h
          rcases ih h k j hm with h1 | ⟨jr, s', hj, hg, hf'⟩
          · rcases List.mem_append.mp h1 with h2 | h2
            · exact Or.inl h2
            · rcases List.mem_singleton.mp h2 with heq
              injection heq with he1 he2
              exact Or.inr ⟨0, s, by omega, by simp, by rw [he1]; exact hf⟩
          · exact shift (Or.inr ⟨jr, s', hj, hg, hf'⟩)
      | none =>
        rw [hf] at h
        dsimp only at h
        exact shift (ih h k j hm)
    | bool b => exact shift (ih h k j hm)
    | num n => exact shift (ih h k j hm)
    | null => exact shift (ih h k j hm)

theorem scan_first {options : List (String × String)} :
    ∀ {row : List Cell} {i : Nat} {acc m : List (String × Nat)},
      scanHeaderRow options row i acc = .ok m →
      ∀ jr s k, row.get? jr = some (Cell.str s) →
        findKeyFor (lowerStr (trimStr s)) options = some k →
        (∃ j', (k, j') ∈ acc) ∨ ∃ j', j' ≤ i + jr ∧ (k, j') ∈ m := by
  intro row
  induction row with
  | nil =>
    intro i acc m h jr s k hg hf
    simp at hg
  | cons c rest ih =>
    intro i acc m h jr s k hg hf
    cases jr with
    | zero =>
      simp only [List.get?_cons_zero, Option.some.injEq] at hg
      subst hg
      simp only [scanHeaderRow, hf] at h
      by_cases hd : dictMem k acc = true
      · rw [if_pos hd] at h; cases h
      · rw [if_neg hd] at h
        have : (k, i) ∈ m := scan_acc_mem h (k, i) (List.mem_append_right _ (by simp))
        exact Or.inr ⟨i, by omega, this⟩
    | succ jr' =>
      have hg' : rest.get? jr' = some (Cell.str s) := by simpa using hg
      cases c with
      | str s0 =>
        simp only [scanHeaderRow] at h
        cases hf0 : findKeyFor (lowerStr (trimStr s0)) options with
        | some k0 =>
          rw [hf0] at h
          dsimp only at h
          by_cases hd : dictMem k0 acc = true
          · rw [if_pos hd] at h; cases h
          · rw [if_neg hd] at h
            rcases ih h jr' s k hg' hf with ⟨j', hj'⟩ | ⟨j', hle, hj'⟩
            · rcases List.mem_append.mp hj' with h2 | h2
              · exact Or.inl ⟨j', h2⟩
              · rcases List.mem_singleton.mp h2 with heq
                injection heq with he1 he2
                exact Or.inr ⟨i, by omega, by
                  rw [he1]
                  exact scan_acc_mem h (k0, i) (List.mem_append_right _ (by simp))⟩
            · exact Or.inr ⟨j', by omega, hj'⟩
        | none =>
          rw [hf0] at h
          dsimp only at h
          rcases ih h jr' s k hg' hf with ⟨j', hj'⟩ | ⟨j', hle, hj'⟩
          · exact Or.inl ⟨j', hj'⟩
          · exact Or.inr ⟨j', by omega, hj'⟩
      | bool b =>
        rcases ih h jr' s k hg' hf with ⟨j', hj'⟩ | ⟨j', hle, hj'⟩
        · exact Or.inl ⟨j', hj'⟩
        · exact Or.inr ⟨j', by omega, hj'⟩
      | num n =>
        rcases ih h jr' s k hg' hf with ⟨j', hj'⟩ | ⟨j', hle, hj'⟩
        · exact Or.inl ⟨j', hj'⟩
        · exact Or.inr ⟨j', by omega, hj'⟩
      | null =>
        rcases ih h jr' s k hg' hf with ⟨j', hj'⟩ | ⟨j', hle, hj'⟩
        · exact Or.inl ⟨j', hj'⟩
        · exact Or.inr ⟨j', by omega, hj'⟩

theorem resolve_headers_ok_scan {row : List Cell} {options : List (String × String)}
    {m : List (String × Nat)} (h : resolve_headers row options = .ok m) :
    scanHeaderRow options row 0 [] = .ok m := by
  rw [resolve_headers] at h
  cases hs : scanHeaderRow options row 0 [] with
  | error e => rw [hs] at h; cases h
  | ok m' =>
    rw [hs] at h
    dsimp only at h
    cases hmk : firstMissingKey m' options with
    | some k => rw [hmk] at h; cases h
    | none =>
      rw [hmk] at h
      cases h
      rfl

/-- **C4.** Header resolution: the three behaviors of the claim on its
concrete examples, plus the matching mechanism in general: every assignment
binds a logical key to a column whose trimmed, lowercased text is matched by
the option scan (`findKeyFor`), assignments are unique per key, and no
earlier column than the assigned one matches the same key (first match
wins; a later match for an assigned key is a duplicate error instead). -/
theorem c4_header_resolution :
    (resolve_headers [Cell.str "Slug", Cell.str "Name"] [("slug", "slug"), ("name", "name")]
      = .ok [("slug", 0), ("name", 1)])
    ∧ (resolve_headers [Cell.str "Slug", Cell.str "Slug"] [("slug", "slug"), ("name", "name")]
      = .error (.duplicate "slug"))
    ∧ (resolve_headers [Cell.str "Name"] [("slug", "slug"), ("name", "name")]
      = .error (.missingColumn "slug"))
    ∧ (∀ (row : List Cell) (options : List (String × String)) (m : List (String × Nat)),
        resolve_headers row options = .ok m →
        (∀ k i, (k, i) ∈ m → ∃ s, row.get? i = some (Cell.str s) ∧
          findKeyFor (lowerStr (trimStr s)) options = some k)
        ∧ (m.map Prod.fst).Nodup
        ∧ (∀ k i j s', (k, i) ∈ m → j < i → row.get? j = some (Cell.str s') →
            findKeyFor (lowerStr (trimStr s')) options ≠ some k)) := by
  refine ⟨rfl, rfl, rfl, ?_⟩
  intro row options m h
  have hscan := resolve_headers_ok_scan h
  refine ⟨?_, scan_keys_nodup hscan (by simp), ?_⟩
  · intro k i hm
    rcases scan_sound hscan k i hm with h1 | ⟨jr, s, hj, hg, hf⟩
    · simp at h1
    · exact ⟨s, by rw [hj]; simpa using hg, hf⟩
  · intro k i j s' hm hlt hg hf
    rcases scan_first hscan j s' k hg hf with ⟨j', hj'⟩ | ⟨j', hle, hj'⟩
    · simp at hj'
    · have hnd := scan_keys_nodup hscan (by simp : (([] : List (String × Nat)).map Prod.fst).Nodup)
      have : j' = i := by
        by_contra hne
        have h1 : k ∈ m.map Prod.fst := List.mem_map.mpr ⟨(k, i), hm, rfl⟩
        have hinj := List.inj_on_of_nodup_map hnd hj' hm rfl
        injection hinj with hi1 hi2
        exact hne hi2
      omega

/-- **C4 witness.** The general soundness clause applied to the concrete
resolution of the claim's first example. -/
theorem c4_witness :
    ∃ s, [Cell.str "Slug", Cell.str "Name"].get? 0 = some (Cell.str s) ∧
      findKeyFor (lowerStr (trimStr s)) [("slug", "slug"), ("name", "name")] = some "slug" :=
  (c4_header_resolution.2.2.2 [Cell.str "Slug", Cell.str "Name"]
    [("slug", "slug"), ("name", "name")] [("slug", 0), ("name", 1)]
    c4_header_resolution.1).1 "slug" 0 (by simp)

/-! ## C9: duplicate workspace slugs -/

theorem mem_dictInsert {α : Type} {k : String} {v : α} {d : List (String × α)} {p : String × α}
    (h : p ∈ dictInsert k v d) : p = (k, v) ∨ p ∈ d := by
  induction d with
  | nil => simpa [dictInsert] using h
  | cons q rest ih =>
    by_cases hq : q.1 = k
    · simp only [dictInsert, if_pos hq] at h
      rcases List.mem_cons.mp h with rfl | h1
      · exact Or.inl rfl
      · exact Or.inr (List.mem_cons_of_mem q h1)
    · simp only [dictInsert, if_neg hq] at h
      rcases List.mem_cons.mp h with rfl | h1
      · exact Or.inr (List.mem_cons_self _ _)
      · rcases ih h1 with h2 | h2
        · exact Or.inl h2
        · exact Or.inr (List.mem_cons_of_mem q h2)

theorem dictFind?_mem {α : Type} {k : String} {d : List (String × α)} {v : α}
    (h : dictFind? k d = some v) : (k, v) ∈ d := by
  induction d with
  | nil => simp [dictFind?] at h
  | cons p rest ih =>
    by_cases hp : p.1 = k
    · simp only [dictFind?, if_pos hp] at h
      injection h with h'
      have : p = (k, v) := by
        cases p
        simp only at hp h'
        simp [hp, h']
      exact this ▸ List.mem_cons_self p rest
    · simp only [dictFind?, if_neg hp] at h
      exact List.mem_cons_of_mem p (ih h)

theorem loadWorkspaces_cons (slugIdx nameIdx : Nat) (row : List Cell)
    (rest : List (List Cell)) (acc : List (String × Workspace)) :
    loadWorkspaces slugIdx nameIdx (row :: rest) acc =
      if (row.getD slugIdx .null).truthy && (row.getD nameIdx .null).truthy then
        match row.getD slugIdx .null, row.getD nameIdx .null with
        | .str s, .str n =>
          loadWorkspaces slugIdx nameIdx rest (dictInsert (lowerStr (trimStr s))
            ⟨lowerStr (trimStr s),
              "[" ++ upperStr (lowerStr (trimStr s)) ++ "] " ++ trimStr n⟩ acc)
        | _, _ => .error .typeError
      else loadWorkspaces slugIdx nameIdx rest acc := rfl

theorem wsRowVal?_eq (slugIdx nameIdx : Nat) (row : List Cell) :
    wsRowVal? slugIdx nameIdx row =
      match row.getD slugIdx .null, row.getD nameIdx .null with
      | .str s, .str n =>
        if s ≠ "" && n ≠ "" then
          some ⟨lowerStr (trimStr s),
            "[" ++ upperStr (lowerStr (trimStr s)) ++ "] " ++ trimStr n⟩
        else none
      | _, _ => none := rfl

theorem loadWorkspaces_char (slugIdx nameIdx : Nat) :
    ∀ (rows : List (List Cell)) (acc : List (String × Workspace)),
      (∀ row ∈ rows, cellStrOk (row.getD slugIdx .null) = true ∧
        cellStrOk (row.getD nameIdx .null) = true) →
      ∃ m, loadWorkspaces slugIdx nameIdx rows acc = .ok m ∧
        (∀ s, dictFind? s m =
          (match lastWs? slugIdx nameIdx s rows with
           | some w => some w
           | none => dictFind? s acc)) ∧
        ((acc.map Prod.fst).Nodup → (m.map Prod.fst).Nodup) := by
  intro rows
  induction rows with
  | nil =>
    intro acc _
    exact ⟨acc, rfl, fun s => rfl, fun h => h⟩
  | cons row rest ih =>
    intro acc hc
    have hrow := hc row (List.mem_cons_self row rest)
    have hrest : ∀ r ∈ rest, cellStrOk (r.getD slugIdx .null) = true ∧
        cellStrOk (r.getD nameIdx .null) = true :=
      fun r hr => hc r (List.mem_cons_of_mem row hr)
    -- the skipped-row case, shared by every non-effective shape of the row
    have hskipped : wsRowVal? slugIdx nameIdx row = none →
        loadWorkspaces slugIdx nameIdx (row :: rest) acc =
          loadWorkspaces slugIdx nameIdx rest acc →
        ∃ m, loadWorkspaces slugIdx nameIdx (row :: rest) acc = .ok m ∧
          (∀ s, dictFind? s m =
            (match lastWs? slugIdx nameIdx s (row :: rest) with
             | some w => some w
             | none => dictFind? s acc)) ∧
          ((acc.map Prod.fst).Nodup → (m.map Prod.fst).Nodup) := by
      intro hval hskip
      rcases ih acc hrest with ⟨m, hm, hfind, hnd⟩
      refine ⟨m, hskip ▸ hm, fun s => ?_, hnd⟩
      rw [hfind s]
      simp only [lastWs?, hval]
      cases lastWs? slugIdx nameIdx s rest <;> rfl
    rcases hcs : row.getD slugIdx Cell.null with s | b | n | _
    case bool => rw [hcs] at hrow; exact Bool.noConfusion hrow.1
    case num => rw [hcs] at hrow; exact Bool.noConfusion hrow.1
    case null =>
      refine hskipped ?_ ?_
      · rw [wsRowVal?_eq, hcs]
      · rw [loadWorkspaces_cons, hcs]
        simp [Cell.truthy]
    case str =>
      rcases hcn : row.getD nameIdx Cell.null with nm | b | n | _
      case bool => rw [hcn] at hrow; exact Bool.noConfusion hrow.2
      case num => rw [hcn] at hrow; exact Bool.noConfusion hrow.2
      case null =>
        refine hskipped ?_ ?_
        · rw [wsRowVal?_eq, hcs, hcn]
        · rw [loadWorkspaces_cons, hcs, hcn]
          simp [Cell.truthy]
      case str =>
        by_cases hse : s = ""
        · refine hskipped ?_ ?_
          · rw [wsRowVal?_eq, hcs, hcn]
            simp [hse]
          · rw [loadWorkspaces_cons, hcs, hcn]
            simp [Cell.truthy, hse]
        · by_cases hne : nm = ""
          · refine hskipped ?_ ?_
            · rw [wsRowVal?_eq, hcs, hcn]
              simp [hne]
            · rw [loadWorkspaces_cons, hcs, hcn]
              simp [Cell.truthy, hne]
          · set w : Workspace := ⟨lowerStr (trimStr s),
              "[" ++ upperStr (lowerStr (trimStr s)) ++ "] " ++ trimStr nm⟩ with hw
            have hstep : loadWorkspaces slugIdx nameIdx (row :: rest) acc =
                loadWorkspaces slugIdx nameIdx rest (dictInsert w.slug w acc) := by
              rw [loadWorkspaces_cons, hcs, hcn]
              simp [Cell.truthy, hse, hne, hw]
            rcases ih (dictInsert w.slug w acc) hrest with ⟨m, hm, hfind, hnd⟩
            refine ⟨m, hstep ▸ hm, fun s' => ?_,
              fun h => hnd (dictInsert_keys_nodup _ _ _ h)⟩
            rw [hfind s']
            have hval : wsRowVal? slugIdx nameIdx row = some w := by
              rw [wsRowVal?_eq, hcs, hcn]
              simp [hse, hne, hw]
            simp only [lastWs?, hval]
            cases lastWs? slugIdx nameIdx s' rest with
            | some w' => rfl
            | none =>
              rw [dictFind?_insert]
              by_cases heq : w.slug = s'
              · rw [if_pos heq, if_pos heq]
              · rw [if_neg heq, if_neg heq]

/-- **C9.** Workspace loading: rows whose slug or name cell is empty are
skipped; every other (string-celled) row is assigned into the dict keyed by
the normalized slug, so two rows normalizing to the same slug leave exactly
one entry, the later row's — no error is raised, the keys stay unique, and
every lookup returns the entry derived from the last row with that slug. -/
theorem c9_duplicate_workspace_slugs (slugIdx nameIdx : Nat) (rows : List (List Cell))
    (hc : ∀ row ∈ rows, cellStrOk (row.getD slugIdx .null) = true ∧
      cellStrOk (row.getD nameIdx .null) = true) :
    ∃ m, loadWorkspaces slugIdx nameIdx rows [] = .ok m ∧
      (m.map Prod.fst).Nodup ∧
      (∀ s, dictFind? s m = lastWs? slugIdx nameIdx s rows) := by
  rcases loadWorkspaces_char slugIdx nameIdx rows [] hc with ⟨m, hm, hfind, hnd⟩
  refine ⟨m, hm, hnd (by simp), fun s => ?_⟩
  rw [hfind s]
  cases lastWs? slugIdx nameIdx s rows <;> rfl

/-- **C9 witness.** The loading characterization applied to concrete rows
with a duplicate slug (`"A"` and `" a "` both normalize to `"a"`) and a
skipped row with an empty name cell. -/
theorem c9_witness :
    ∃ m, loadWorkspaces 0 1
        [[Cell.str "A", Cell.str "First"], [Cell.str " a ", Cell.str "Second"],
         [Cell.str "b", Cell.null]] [] = .ok m ∧
      (m.map Prod.fst).Nodup ∧
      (∀ s, dictFind? s m = lastWs? 0 1 s
        [[Cell.str "A", Cell.str "First"], [Cell.str " a ", Cell.str "Second"],
         [Cell.str "b", Cell.null]]) :=
  c9_duplicate_workspace_slugs 0 1
    [[Cell.str "A", Cell.str "First"], [Cell.str " a ", Cell.str "Second"],
     [Cell.str "b", Cell.null]] (by decide)

/-! ## C10: first-wins user merge -/

/-- **C10.** When a user row's email is already recorded, the row only adds
a workspace assignment: the stored name, email, and active values stay those
of the first row, and the outcome of processing the row does not depend on
the new row's name or active cell at all — a differing name or active value
is silently ignored, with no error and no overwrite. -/
theorem c10_first_wins_user_merge :
    (∀ (file : String) (wsKeys : List String) (users : List (String × UserRec))
       (n : Nat) (e w nm rl : String) (act : Option Bool) (u : UserRec)
       (users' : List (String × UserRec)),
      dictFind? e users = some u →
      recordRow file wsKeys users ⟨some w, some nm, some e, some rl, some act⟩ n = .ok users' →
      dictFind? e users' =
        some { u with workspaces := u.workspaces ++ [(w, ⟨rl, w, file⟩)] })
    ∧ (∀ (file : String) (wsKeys : List String) (users : List (String × UserRec))
       (n : Nat) (e w rl : String) (nm₁ nm₂ : String) (act₁ act₂ : Option Bool),
      dictMem e users = true →
      recordRow file wsKeys users ⟨some w, some nm₁, some e, some rl, some act₁⟩ n =
        recordRow file wsKeys users ⟨some w, some nm₂, some e, some rl, some act₂⟩ n) := by
  constructor
  · intro file wsKeys users n e w nm rl act u users' hu hok
    have hmem : dictMem e users = true := dictMem_of_find?_some hu
    simp only [recordRow] at hok
    by_cases hws : wsKeys.contains w = true
    · rw [if_neg (not_not_intro hws)] at hok
      rw [if_pos hmem, hu] at hok
      dsimp only at hok
      cases hdup : dictFind? w u.workspaces with
      | some a0 => rw [hdup] at hok; cases hok
      | none =>
        rw [hdup] at hok
        dsimp only at hok
        cases hcf : u.workspaces.find? (fun p => p.2.role ≠ rl) with
        | some p => rw [hcf] at hok; cases hok
        | none =>
          rw [hcf] at hok
          dsimp only at hok
          injection hok with hok'
          rw [← hok', dictFind?_insert]
          simp
    · rw [if_pos hws] at hok
      cases hok
  · intro file wsKeys users n e w rl nm₁ nm₂ act₁ act₂ hmem
    simp only [recordRow]
    by_cases hws : wsKeys.contains w = true
    · rw [if_neg (not_not_intro hws), if_neg (not_not_intro hws), if_pos hmem, if_pos hmem]
    · rw [if_pos hws, if_pos hws]

/-- **C10 witness.** A second row for an existing email with a different
name and active value only appends the workspace assignment. -/
theorem c10_witness :
    dictFind? "a@x.com"
        (match recordRow "g.xlsx" ["w1", "w2"]
          [("a@x.com", ⟨"First Name", "a@x.com", some true, [("w1", ⟨"R", "w1", "f.xlsx"⟩)]⟩)]
          ⟨some "w2", some "Other Name", some "a@x.com", some "R", some false⟩ 3 with
         | .ok users' => users'
         | .error _ => []) =
      some ⟨"First Name", "a@x.com", some true,
        [("w1", ⟨"R", "w1", "f.xlsx"⟩), ("w2", ⟨"R", "w2", "g.xlsx"⟩)]⟩ := by
  have h := c10_first_wins_user_merge.1 "g.xlsx" ["w1", "w2"]
    [("a@x.com", ⟨"First Name", "a@x.com", some true, [("w1", ⟨"R", "w1", "f.xlsx"⟩)]⟩)]
    3 "a@x.com" "w2" "Other Name" "R" (some false)
    ⟨"First Name", "a@x.com", some true, [("w1", ⟨"R", "w1", "f.xlsx"⟩)]⟩
    (match recordRow "g.xlsx" ["w1", "w2"]
      [("a@x.com", ⟨"First Name", "a@x.com", some true, [("w1", ⟨"R", "w1", "f.xlsx"⟩)]⟩)]
      ⟨some "w2", some "Other Name", some "a@x.com", some "R", some false⟩ 3 with
     | .ok users' => users'
     | .error _ => []) rfl rfl
  exact h

/-! ## C5: incomplete user rows -/

theorem lastMissing?_eq_none_iff (row : List Cell) (headers : List (String × Nat)) :
    lastMissing? row headers = none ↔ ∀ c ∈ headers, row.getD c.2 .null ≠ .null := by
  induction headers with
  | nil => simp [lastMissing?]
  | cons c rest ih =>
    simp only [lastMissing?]
    cases hm : lastMissing? row rest with
    | some k =>
      simp only [reduceCtorEq, false_iff]
      intro hall
      have := ih.mpr (fun c' hc' => hall c' (List.mem_cons_of_mem c hc'))
      rw [hm] at this; cases this
    | none =>
      by_cases hnull : row.getD c.2 .null = .null
      · simp only [if_pos hnull, reduceCtorEq, false_iff]
        intro hall
        exact hall c (List.mem_cons_self c rest) hnull
      · simp only [if_neg hnull]
        constructor
        · intro _ c' hc'
          rcases List.mem_cons.mp hc' with rfl | hc''
          · exact hnull
          · exact (ih.mp hm) c' hc''
        · intro _; trivial

theorem setCol_ok (r : UserRow) (col : String) (c : Cell)
    (hok : colCellOk col c = true) (hnn : c ≠ .null) :
    ∃ r', setCol r col c = .ok r' := by
  cases c with
  | str s =>
    simp only [setCol]
    by_cases h1 : col = "email"
    · exact ⟨_, by rw [if_pos h1]⟩
    · rw [if_neg h1]
      by_cases h2 : col = "workspace"
      · exact ⟨_, by rw [if_pos h2]⟩
      · rw [if_neg h2]
        by_cases h3 : col = "active"
        · exact ⟨_, by rw [if_pos h3]⟩
        · rw [if_neg h3]
          by_cases h4 : col = "name"
          · exact ⟨_, by rw [if_pos h4]⟩
          · rw [if_neg h4]
            by_cases h5 : col = "role"
            · exact ⟨_, by rw [if_pos h5]⟩
            · exact ⟨r, by rw [if_neg h5]⟩
  | null => exact absurd rfl hnn
  | bool b =>
    have hcol : ¬ (col = "email") ∧ ¬ (col = "workspace") ∧ ¬ (col = "name") ∧
        ¬ (col = "role") := by
      simp only [colCellOk, Bool.not_eq_true', Bool.or_eq_false_iff] at hok
      revert hok
      by_cases h1 : col = "email" <;> by_cases h2 : col = "workspace" <;>
        by_cases h3 : col = "name" <;> by_cases h4 : col = "role" <;>
        simp [h1, h2, h3, h4]
    simp only [setCol, if_neg hcol.1, if_neg hcol.2.1]
    by_cases h3 : col = "active"
    · exact ⟨_, by rw [if_pos h3]⟩
    · rw [if_neg h3, if_neg hcol.2.2.1, if_neg hcol.2.2.2]
      exact ⟨r, rfl⟩
  | num n =>
    have hcol : ¬ (col = "email") ∧ ¬ (col = "workspace") ∧ ¬ (col = "name") ∧
        ¬ (col = "role") := by
      simp only [colCellOk, Bool.not_eq_true', Bool.or_eq_false_iff] at hok
      revert hok
      by_cases h1 : col = "email" <;> by_cases h2 : col = "workspace" <;>
        by_cases h3 : col = "name" <;> by_cases h4 : col = "role" <;>
        simp [h1, h2, h3, h4]
    simp only [setCol, if_neg hcol.1, if_neg hcol.2.1]
    by_cases h3 : col = "active"
    · exact ⟨_, by rw [if_pos h3]⟩
    · rw [if_neg h3, if_neg hcol.2.2.1, if_neg hcol.2.2.2]
      exact ⟨r, rfl⟩

theorem parseCols_cons (row : List Cell) (col : String) (idx : Nat)
    (rest : List (String × Nat)) (r : UserRow) (e : Bool) (msd : Option String) :
    parseCols row ((col, idx) :: rest) r e msd =
      match row.getD idx .null with
      | .null => parseCols row rest r e (some col)
      | c => Except.bind (setCol r col c) (fun r' => parseCols row rest r' false msd) := rfl

theorem userRowStep_eq (file : String) (wsKeys : List String)
    (headers : List (String × Nat)) (st : List (String × UserRec) × UserRow)
    (row : List Cell) (n : Nat) :
    userRowStep file wsKeys headers st row n =
      Except.bind (parseCols row headers st.2 true none) (fun t =>
        if t.2.1 then Except.ok (st.1, t.1)
        else
          match t.2.2 with
          | some col => Except.error (.incompleteRow (titleStr col) n)
          | none => Except.bind (recordRow file wsKeys st.1 t.1 n)
              (fun users' => Except.ok (users', t.1))) := rfl

theorem loadUserRows_cons (file : String) (wsKeys : List String)
    (headers : List (String × Nat)) (row : List Cell) (rows : List (List Cell))
    (st : List (String × UserRec) × UserRow) (n : Nat) :
    loadUserRows file wsKeys headers (row :: rows) st n =
      Except.bind (userRowStep file wsKeys headers st row n)
        (fun st' => loadUserRows file wsKeys headers rows st' (n + 1)) := rfl

theorem parseCols_char (row : List Cell) :
    ∀ (headers : List (String × Nat)) (r : UserRow) (e : Bool) (msd : Option String),
      (∀ c ∈ headers, colCellOk c.1 (row.getD c.2 .null) = true) →
      ∃ r', parseCols row headers r e msd = .ok (r',
        (e && headers.all (fun c => row.getD c.2 .null = Cell.null)),
        (match lastMissing? row headers with
         | some k => some k
         | none => msd)) := by
  intro headers
  induction headers with
  | nil =>
    intro r e msd _
    exact ⟨r, by simp [parseCols, lastMissing?]⟩
  | cons c rest ih =>
    intro r e msd hcells
    obtain ⟨col, idx⟩ := c
    have hcur := hcells (col, idx) (List.mem_cons_self _ _)
    have hrest : ∀ c' ∈ rest, colCellOk c'.1 (row.getD c'.2 .null) = true :=
      fun c' hc' => hcells c' (List.mem_cons_of_mem _ hc')
    rw [parseCols_cons]
    cases hcell : row.getD idx Cell.null with
    | null =>
      dsimp only
      rcases ih r e (some col) hrest with ⟨r', hr'⟩
      refine ⟨r', ?_⟩
      rw [hr']
      have hall : ((col, idx) :: rest).all (fun c => row.getD c.2 .null = Cell.null) =
          rest.all (fun c => row.getD c.2 .null = Cell.null) := by
        simp only [List.all_cons, hcell]
        simp
      rw [hall]
      have hlm : lastMissing? row ((col, idx) :: rest) =
          match lastMissing? row rest with
          | some k => some k
          | none => some col := by
        simp only [lastMissing?, hcell]
        cases lastMissing? row rest <;> simp
      rw [hlm]
      cases lastMissing? row rest <;> rfl
    | str s =>
      have hnn : row.getD idx Cell.null ≠ Cell.null := by rw [hcell]; simp
      rcases setCol_ok r col (Cell.str s) (hcell ▸ hcur) (by simp) with ⟨r₂, hset⟩
      dsimp only
      rw [hset]
      dsimp only [Except.bind]
      rcases ih r₂ false msd hrest with ⟨r', hr'⟩
      refine ⟨r', ?_⟩
      rw [hr']
      have hall : ((col, idx) :: rest).all (fun c => row.getD c.2 .null = Cell.null) =
          false := by
        simp only [List.all_cons, hcell]
        simp
      rw [hall]
      have hlm : lastMissing? row ((col, idx) :: rest) = lastMissing? row rest := by
        simp only [lastMissing?, hcell]
        cases lastMissing? row rest <;> simp
      rw [hlm]
      simp
    | bool b =>
      rcases setCol_ok r col (Cell.bool b) (hcell ▸ hcur) (by simp) with ⟨r₂, hset⟩
      dsimp only
      rw [hset]
      dsimp only [Except.bind]
      rcases ih r₂ false msd hrest with ⟨r', hr'⟩
      refine ⟨r', ?_⟩
      rw [hr']
      have hall : ((col, idx) :: rest).all (fun c => row.getD c.2 .null = Cell.null) =
          false := by
        simp only [List.all_cons, hcell]
        simp
      rw [hall]
      have hlm : lastMissing? row ((col, idx) :: rest) = lastMissing? row rest := by
        simp only [lastMissing?, hcell]
        cases lastMissing? row rest <;> simp
      rw [hlm]
      simp
    | num n =>
      rcases setCol_ok r col (Cell.num n) (hcell ▸ hcur) (by simp) with ⟨r₂, hset⟩
      dsimp only
      rw [hset]
      dsimp only [Except.bind]
      rcases ih r₂ false msd hrest with ⟨r', hr'⟩
      refine ⟨r', ?_⟩
      rw [hr']
      have hall : ((col, idx) :: rest).all (fun c => row.getD c.2 .null = Cell.null) =
          false := by
        simp only [List.all_cons, hcell]
        simp
      rw [hall]
      have hlm : lastMissing? row ((col, idx) :: rest) = lastMissing? row rest := by
        simp only [lastMissing?, hcell]
        cases lastMissing? row rest <;> simp
      rw [hlm]
      simp

/-- **C5 counterexample.** A row missing both `workspace` and `name` (with
the columns resolved in the order workspace, name, email, role, active)
fails naming `Name` — the *last* missing field — where the claim requires
the first missing field, `Workspace`. -/
theorem c5_counterexample :
    userRowStep "users.xlsx" ["w1"]
        [("workspace", 0), ("name", 1), ("email", 2), ("role", 3), ("active", 4)]
        ([], emptyUserRow)
        [Cell.null, Cell.null, Cell.str "a@x.com", Cell.str "R", Cell.str "yes"] 2
      = .error (.incompleteRow "Name" 2) ∧ ("Name" : String) ≠ "Workspace" :=
  ⟨rfl, by decide⟩

/-- **C5 (amended).** A user row with at least one populated and at least one
absent required cell (populated cells being of coercible type) fails
immediately with an incomplete-row error naming the **last** missing field in
the resolved header order — not the first — and an erroring row aborts the
processing of all remaining rows, so no user record is added for it. -/
theorem c5_incomplete_user_rows :
    (∀ (file : String) (wsKeys : List String) (headers : List (String × Nat))
       (st : List (String × UserRec) × UserRow) (row : List Cell) (n : Nat),
      (∀ c ∈ headers, colCellOk c.1 (row.getD c.2 .null) = true) →
      (∃ c ∈ headers, row.getD c.2 .null ≠ .null) →
      (∃ c ∈ headers, row.getD c.2 .null = .null) →
      ∃ lastCol, lastMissing? row headers = some lastCol ∧
        userRowStep file wsKeys headers st row n =
          .error (.incompleteRow (titleStr lastCol) n))
    ∧ (∀ (file : String) (wsKeys : List String) (headers : List (String × Nat))
       (st : List (String × UserRec) × UserRow) (row : List Cell)
       (rows : List (List Cell)) (n : Nat) (err : LoadError),
      userRowStep file wsKeys headers st row n = .error err →
      loadUserRows file wsKeys headers (row :: rows) st n = .error err) := by
  constructor
  · intro file wsKeys headers st row n hcells hpresent hmissing
    rcases parseCols_char row headers st.2 true none hcells with ⟨r', hpc⟩
    have hempty : headers.all (fun c => row.getD c.2 .null = Cell.null) = false := by
      rcases hpresent with ⟨c, hc, hcnn⟩
      cases hall : headers.all (fun c => decide (row.getD c.2 Cell.null = Cell.null)) with
      | false => rfl
      | true => exact absurd (by simpa using List.all_eq_true.mp hall c hc) hcnn
    have hlast : ∃ lastCol, lastMissing? row headers = some lastCol := by
      cases hlm : lastMissing? row headers with
      | some k => exact ⟨k, rfl⟩
      | none =>
        rcases hmissing with ⟨c, hc, hcn⟩
        exact absurd hcn ((lastMissing?_eq_none_iff row headers).mp hlm c hc)
    rcases hlast with ⟨lastCol, hlm⟩
    refine ⟨lastCol, hlm, ?_⟩
    have hpc' : parseCols row headers st.2 true none = .ok (r', false, some lastCol) := by
      rw [hpc, hlm]
      rw [Bool.true_and, hempty]
    rw [userRowStep_eq, hpc']
    rfl
  · intro file wsKeys headers st row rows n err hstep
    rw [loadUserRows_cons, hstep]
    rfl

/-- **C5 witness.** The amended clause applied to the counterexample row:
the last missing field in header order is `name`. -/
theorem c5_witness :
    ∃ lastCol, lastMissing?
        [Cell.null, Cell.null, Cell.str "a@x.com", Cell.str "R", Cell.str "yes"]
        [("workspace", 0), ("name", 1), ("email", 2), ("role", 3), ("active", 4)]
      = some lastCol ∧
      userRowStep "users.xlsx" ["w1"]
        [("workspace", 0), ("name", 1), ("email", 2), ("role", 3), ("active", 4)]
        ([], emptyUserRow)
        [Cell.null, Cell.null, Cell.str "a@x.com", Cell.str "R", Cell.str "yes"] 2
      = .error (.incompleteRow (titleStr lastCol) 2) :=
  c5_incomplete_user_rows.1 "users.xlsx" ["w1"]
    [("workspace", 0), ("name", 1), ("email", 2), ("role", 3), ("active", 4)]
    ([], emptyUserRow)
    [Cell.null, Cell.null, Cell.str "a@x.com", Cell.str "R", Cell.str "yes"] 2
    (by decide) (by decide) (by decide)

/-! ## C7: conflicting-role and duplicate-assignment detection -/

theorem head?_mem {α : Type} {l : List α} {a : α} (h : l.head? = some a) : a ∈ l := by
  cases l with
  | nil => cases h
  | cons x t =>
    injection h with h'
    rw [← h']
    exact List.mem_cons_self x t

theorem recordRow_eq (file : String) (wsKeys : List String)
    (users : List (String × UserRec)) (w nm e rl : String) (act : Option Bool) (n : Nat) :
    recordRow file wsKeys users ⟨some w, some nm, some e, some rl, some act⟩ n =
      (if ¬ wsKeys.contains w then .error (.unknownWorkspace w n)
       else
        let users' := if dictMem e users then users else dictInsert e ⟨nm, e, act, []⟩ users
        match dictFind? e users' with
        | none => .error .typeError
        | some u =>
          match dictFind? w u.workspaces with
          | some a0 => .error (.duplicateAssignment w a0.file n)
          | none =>
            match u.workspaces.find? (fun p => p.2.role ≠ rl) with
            | some p => .error (.conflictingRole rl p.2.role p.2.file n)
            | none =>
              .ok (dictInsert e
                { u with workspaces := u.workspaces ++ [(w, ⟨rl, w, file⟩)] } users')) := rfl

theorem recordRow_consistent {file : String} {wsKeys : List String}
    {users : List (String × UserRec)} {r : UserRow} {n : Nat}
    {users' : List (String × UserRec)}
    (h : recordRow file wsKeys users r n = .ok users')
    (hc : ConsistentRoles users) : ConsistentRoles users' := by
  obtain ⟨w?, n?, e?, rl?, a?⟩ := r
  cases w? with
  | none => exact absurd h (by simp [recordRow])
  | some w =>
  cases n? with
  | none => exact absurd h (by simp [recordRow])
  | some nm =>
  cases e? with
  | none => exact absurd h (by simp [recordRow])
  | some e =>
  cases rl? with
  | none => exact absurd h (by simp [recordRow])
  | some rl =>
  cases a? with
  | none => exact absurd h (by simp [recordRow])
  | some act =>
  rw [recordRow_eq] at h
  by_cases hws : wsKeys.contains w = true
  · rw [if_neg (not_not_intro hws)] at h
    dsimp only at h
    cases hu : dictFind? e
        (if dictMem e users = true then users
         else dictInsert e ⟨nm, e, act, []⟩ users) with
    | none => rw [hu] at h; cases h
    | some u =>
      rw [hu] at h
      dsimp only at h
      cases hdup : dictFind? w u.workspaces with
      | some a0 => rw [hdup] at h; cases h
      | none =>
        rw [hdup] at h
        dsimp only at h
        cases hcf : u.workspaces.find? (fun p => p.2.role ≠ rl) with
        | some p => rw [hcf] at h; cases h
        | none =>
          rw [hcf] at h
          dsimp only at h
          injection h with h'
          have hall : ∀ q ∈ u.workspaces, q.2.role = rl := by
            intro q hq
            have := List.find?_eq_none.mp hcf q hq
            simpa using this
          have hconsUsers'' : ConsistentRoles
              (if dictMem e users = true then users
               else dictInsert e ⟨nm, e, act, []⟩ users) := by
            by_cases hmem : dictMem e users = true
            · rw [if_pos hmem]; exact hc
            · rw [if_neg hmem]
              intro p hp a ha a0 ha0
              rcases mem_dictInsert hp with rfl | hp'
              · cases ha
              · exact hc p hp' a ha a0 ha0
          rw [← h']
          intro p hp a ha a0 ha0
          rcases mem_dictInsert hp with rfl | hp'
          · have hroles : ∀ q ∈ u.workspaces ++ [(w, (⟨rl, w, file⟩ : Assignment))],
                q.2.role = rl := by
              intro q hq
              rcases List.mem_append.mp hq with h1 | h1
              · exact hall q h1
              · rcases List.mem_singleton.mp h1 with rfl; rfl
            have ha0' : a0 ∈ u.workspaces ++ [(w, (⟨rl, w, file⟩ : Assignment))] :=
              head?_mem ha0
            rw [hroles a ha, hroles a0 ha0']
          · exact hconsUsers'' p hp' a ha a0 ha0
  · rw [if_pos hws] at h; cases h

theorem userRowStep_consistent {file : String} {wsKeys : List String}
    {headers : List (String × Nat)} {st : List (String × UserRec) × UserRow}
    {row : List Cell} {n : Nat} {st' : List (String × UserRec) × UserRow}
    (h : userRowStep file wsKeys headers st row n = .ok st')
    (hc : ConsistentRoles st.1) : ConsistentRoles st'.1 := by
  rw [userRowStep_eq] at h
  cases hpc : parseCols row headers st.2 true none with
  | error err => rw [hpc] at h; cases h
  | ok t =>
    rw [hpc] at h
    dsimp only [Except.bind] at h
    by_cases hemp : t.2.1 = true
    · rw [if_pos hemp] at h
      injection h with h'
      rw [← h']
      exact hc
    · rw [if_neg hemp] at h
      cases hm : t.2.2 with
      | some col => rw [hm] at h; cases h
      | none =>
        rw [hm] at h
        dsimp only at h
        cases hrec : recordRow file wsKeys st.1 t.1 n with
        | error err => rw [hrec] at h; cases h
        | ok users' =>
          rw [hrec] at h
          dsimp only [Except.bind] at h
          injection h with h'
          rw [← h']
          exact recordRow_consistent hrec hc

theorem loadUserRows_consistent {file : String} {wsKeys : List String}
    {headers : List (String × Nat)} :
    ∀ {rows : List (List Cell)} {st st' : List (String × UserRec) × UserRow} {n : Nat},
      loadUserRows file wsKeys headers rows st n = .ok st' →
      ConsistentRoles st.1 → ConsistentRoles st'.1 := by
  intro rows
  induction rows with
  | nil =>
    intro st st' n h hc
    injection h with h'
    rw [← h']
    exact hc
  | cons row rest ih =>
    intro st st' n h hc
    rw [loadUserRows_cons] at h
    cases hstep : userRowStep file wsKeys headers st row n with
    | error err => rw [hstep] at h; cases h
    | ok st'' =>
      rw [hstep] at h
      dsimp only [Except.bind] at h
      exact ih h (userRowStep_consistent hstep hc)

theorem loadUserFiles_cons (wsKeys : List String) (file : String)
    (headers : List (String × Nat)) (rows : List (List Cell))
    (rest : List (String × List (String × Nat) × List (List Cell)))
    (users : List (String × UserRec)) :
    loadUserFiles wsKeys ((file, headers, rows) :: rest) users =
      Except.bind (loadUserRows file wsKeys headers rows (users, emptyUserRow) 2)
        (fun t => loadUserFiles wsKeys rest t.1) := rfl

theorem loadUserFiles_consistent {wsKeys : List String} :
    ∀ {files : List (String × List (String × Nat) × List (List Cell))}
      {init users : List (String × UserRec)},
      loadUserFiles wsKeys files init = .ok users →
      ConsistentRoles init → ConsistentRoles users := by
  intro files
  induction files with
  | nil =>
    intro init users h hc
    injection h with h'
    rw [← h']
    exact hc
  | cons f rest ih =>
    intro init users h hc
    obtain ⟨file, headers, rows⟩ := f
    rw [loadUserFiles_cons] at h
    cases hrows : loadUserRows file wsKeys headers rows (init, emptyUserRow) 2 with
    | error err => rw [hrows] at h; cases h
    | ok st' =>
      rw [hrows] at h
      dsimp only [Except.bind] at h
      exact ih h (loadUserRows_consistent hrows hc)

/-- **C7.** Conflict detection while loading users.  (1) Loading preserves
the invariant that all of a user's recorded assignments carry the role of
the first assignment.  (2) A row assigning an existing user to a new
workspace with a role different from the recorded one fails with a
conflicting-role error citing both role names and the file of the first
assignment.  (3) A row re-assigning an already-assigned workspace fails
with a duplicate-assignment error citing the originating file. -/
theorem c7_conflict_detection :
    (∀ (wsKeys : List String)
       (files : List (String × List (String × Nat) × List (List Cell)))
       (users : List (String × UserRec)),
      loadUserFiles wsKeys files [] = .ok users → ConsistentRoles users)
    ∧ (∀ (file : String) (wsKeys : List String) (users : List (String × UserRec))
       (n : Nat) (e w nm rl : String) (act : Option Bool) (u : UserRec)
       (a0 : String × Assignment) (rest : List (String × Assignment)),
      dictFind? e users = some u →
      u.workspaces = a0 :: rest →
      (∀ a ∈ u.workspaces, a.2.role = a0.2.role) →
      wsKeys.contains w = true →
      dictFind? w u.workspaces = none →
      rl ≠ a0.2.role →
      recordRow file wsKeys users ⟨some w, some nm, some e, some rl, some act⟩ n =
        .error (.conflictingRole rl a0.2.role a0.2.file n))
    ∧ (∀ (file : String) (wsKeys : List String) (users : List (String × UserRec))
       (n : Nat) (e w nm rl : String) (act : Option Bool) (u : UserRec)
       (adup : Assignment),
      dictFind? e users = some u →
      wsKeys.contains w = true →
      dictFind? w u.workspaces = some adup →
      recordRow file wsKeys users ⟨some w, some nm, some e, some rl, some act⟩ n =
        .error (.duplicateAssignment w adup.file n)) := by
  refine ⟨?_, ?_, ?_⟩
  · intro wsKeys files users h
    exact loadUserFiles_consistent h (fun p hp => by cases hp)
  · intro file wsKeys users n e w nm rl act u a0 rest hu hws hcons hcont hdup hne
    rw [recordRow_eq, if_neg (not_not_intro hcont)]
    dsimp only
    rw [if_pos (dictMem_of_find?_some hu), hu]
    dsimp only
    rw [hdup]
    dsimp only
    have hfind : u.workspaces.find? (fun p => p.2.role ≠ rl) = some a0 := by
      rw [hws]
      refine List.find?_cons_of_pos rest ?_
      simp
      exact fun hc => hne hc.symm
    rw [hfind]
  · intro file wsKeys users n e w nm rl act u adup hu hcont hdup
    rw [recordRow_eq, if_neg (not_not_intro hcont)]
    dsimp only
    rw [if_pos (dictMem_of_find?_some hu), hu]
    dsimp only
    rw [hdup]

/-- **C7 witness.** Both error clauses at concrete inputs: a conflicting
role `R2` against recorded `R1` cites `R1` and the first file, and a
repeated workspace assignment cites the originating file. -/
theorem c7_witness :
    recordRow "g.xlsx" ["w1", "w2"]
        [("a@x.com", ⟨"A", "a@x.com", some true, [("w1", ⟨"R1", "w1", "f.xlsx"⟩)]⟩)]
        ⟨some "w2", some "A", some "a@x.com", some "R2", some true⟩ 4
      = .error (.conflictingRole "R2" "R1" "f.xlsx" 4) ∧
    recordRow "g.xlsx" ["w1", "w2"]
        [("a@x.com", ⟨"A", "a@x.com", some true, [("w1", ⟨"R1", "w1", "f.xlsx"⟩)]⟩)]
        ⟨some "w1", some "A", some "a@x.com", some "R1", some true⟩ 5
      = .error (.duplicateAssignment "w1" "f.xlsx" 5) := by
  constructor
  · exact c7_conflict_detection.2.1 "g.xlsx" ["w1", "w2"]
      [("a@x.com", ⟨"A", "a@x.com", some true, [("w1", ⟨"R1", "w1", "f.xlsx"⟩)]⟩)]
      4 "a@x.com" "w2" "A" "R2" (some true)
      ⟨"A", "a@x.com", some true, [("w1", ⟨"R1", "w1", "f.xlsx"⟩)]⟩
      ("w1", ⟨"R1", "w1", "f.xlsx"⟩) [] rfl rfl (by decide) (by decide) rfl (by decide)
  · exact c7_conflict_detection.2.2 "g.xlsx" ["w1", "w2"]
      [("a@x.com", ⟨"A", "a@x.com", some true, [("w1", ⟨"R1", "w1", "f.xlsx"⟩)]⟩)]
      5 "a@x.com" "w1" "A" "R1" (some true)
      ⟨"A", "a@x.com", some true, [("w1", ⟨"R1", "w1", "f.xlsx"⟩)]⟩
      ⟨"R1", "w1", "f.xlsx"⟩ rfl (by decide) rfl

/-! ## C2: other-workspaces expansion -/

theorem mapM_ok_of_forall {α β ε : Type} {f : α → Except ε β} {g : α → β} :
    ∀ {l : List α}, (∀ a ∈ l, f a = .ok (g a)) → l.mapM f = .ok (l.map g) := by
  intro l
  induction l with
  | nil => intro _; rfl
  | cons a t ih =>
    intro h
    rw [List.mapM_cons, h a (List.mem_cons_self a t),
      ih (fun x hx => h x (List.mem_cons_of_mem a hx))]
    rfl

theorem count_map_eq_one {α β : Type} [DecidableEq β] {h : α → β} :
    ∀ {l : List α} {a : α}, l.Nodup → a ∈ l → (∀ x ∈ l, h x = h a → x = a) →
      (l.map h).count (h a) = 1 := by
  intro l
  induction l with
  | nil => intro a _ ha _; cases ha
  | cons b t ih =>
    intro a hnd hmem hinj
    rcases List.nodup_cons.mp hnd with ⟨hb, ht⟩
    rcases List.mem_cons.mp hmem with rfl | hmem'
    · rw [List.map_cons, List.count_cons_self]
      have hz : (t.map h).count (h a) = 0 := by
        rw [List.count_eq_zero]
        intro hc
        rcases List.mem_map.mp hc with ⟨x, hx, hhx⟩
        exact hb (hinj x (List.mem_cons_of_mem a hx) hhx ▸ hx)
      rw [hz]
    · have hne : h b ≠ h a := by
        intro hc
        exact hb ((hinj b (List.mem_cons_self b t) hc) ▸ hmem')
      rw [List.map_cons, List.count_cons_of_ne (fun hc => hne hc.symm) , ih ht hmem'
        (fun x hx => hinj x (List.mem_cons_of_mem b hx))]

theorem count_map_eq_zero {α β : Type} [DecidableEq β] {h : α → β} {l : List α} {c : β}
    (hne : ∀ x ∈ l, h x ≠ c) : (l.map h).count c = 0 := by
  rw [List.count_eq_zero]
  intro hc
  rcases List.mem_map.mp hc with ⟨x, hx, hhx⟩
  exact hne x hx hhx

theorem exceptBind_ok {ε α β : Type} (a : α) (f : α → Except ε β) :
    (Except.ok a : Except ε α) >>= f = f a := rfl

theorem exceptBind_error {ε α β : Type} (e : ε) (f : α → Except ε β) :
    (Except.error e : Except ε α) >>= f = .error e := rfl

theorem exceptBind_pure {ε α β : Type} (a : α) (f : α → Except ε β) :
    (pure a : Except ε α) >>= f = f a := rfl

theorem exceptPure_eq {ε α : Type} (a : α) :
    (pure a : Except ε α) = Except.ok a := rfl

theorem compileRoleData_resolved (tmpl : RoleTemplate) (P : List String)
    (wss : List (Workspace × WorkspaceItem))
    (hPmem : ∀ s ∈ P, ((wss.find? (fun p => p.1.slug = s)).isSome) = true) :
    compileRoleData tmpl P (wss.map (fun p => (p.1, some p.2))) =
      .ok ⟨tmpl.organization,
        sortEntries (P.map (primEntry wss tmpl) ++
          (if tmpl.other_workspaces.anyTrue then otherEntries wss tmpl P else [])),
        none, none⟩ := by
  have hprim : P.mapM (fun slug =>
      match (wss.map (fun p => (p.1, some p.2))).find? (fun p => p.1.slug = slug) with
      | none => Except.error slug
      | some (_, none) => Except.error slug
      | some (_, some it) => Except.ok (⟨it.id, tmpl.primary_workspaces⟩ : WsEntry)) =
      .ok (P.map (primEntry wss tmpl)) := by
    apply mapM_ok_of_forall
    intro s hs
    have hsome := hPmem s hs
    cases hfind : wss.find? (fun p => p.1.slug = s) with
    | none => rw [hfind] at hsome; cases hsome
    | some q =>
      have hmapfind : (wss.map (fun p => (p.1, some p.2))).find?
          (fun p => p.1.slug = s) = some (q.1, some q.2) := by
        rw [List.find?_map]
        have hcomp : wss.find? ((fun (p : Workspace × Option WorkspaceItem) =>
            decide (p.1.slug = s)) ∘ (fun p => (p.1, some p.2))) = some q := hfind
        rw [hcomp]
        rfl
      rw [hmapfind]
      show Except.ok _ = Except.ok (primEntry wss tmpl s)
      rw [primEntry, idOf, hfind]
      rfl
  have hoth : ((wss.map (fun p => (p.1, some p.2))).filter
        (fun p => ¬ P.contains p.1.slug)).mapM
        (fun p =>
          match p.2 with
          | none => Except.error p.1.slug
          | some it => Except.ok (⟨it.id, tmpl.other_workspaces⟩ : WsEntry)) =
      .ok (otherEntries wss tmpl P) := by
    have hfil : (wss.map (fun p => (p.1, some p.2))).filter
        (fun p => ¬ P.contains p.1.slug) =
        (wss.filter (fun p => ¬ P.contains p.1.slug)).map (fun p => (p.1, some p.2)) := by
      rw [List.filter_map]
      rfl
    rw [hfil]
    have h := mapM_ok_of_forall
      (f := fun (p : Workspace × Option WorkspaceItem) =>
        match p.2 with
        | none => Except.error p.1.slug
        | some it => Except.ok (⟨it.id, tmpl.other_workspaces⟩ : WsEntry))
      (g := fun (p : Workspace × Option WorkspaceItem) =>
        (⟨(p.2.map (fun it => it.id)).getD "", tmpl.other_workspaces⟩ : WsEntry))
      (l := (wss.filter (fun p => ¬ P.contains p.1.slug)).map (fun p => (p.1, some p.2)))
      (by
        intro a ha
        rcases List.mem_map.mp ha with ⟨p, _, rfl⟩
        rfl)
    rw [h, List.map_map]
    rfl
  rw [compileRoleData, hprim]
  simp only [exceptBind_ok]
  by_cases hany : tmpl.other_workspaces.anyTrue = true
  · rw [if_pos hany, if_pos hany, hoth]
    simp only [exceptBind_ok]
    rfl
  · rw [if_neg hany, if_neg hany, List.append_nil]
    rfl

/-- **C2.** For a compiled role with primary slug list `P` over the desired
workspace set: its workspace entries are, as a multiset, exactly one primary
entry per slug of `P` plus — iff some other-workspaces flag is true — one
other entry per non-primary workspace; the list is sorted by remote id and
has no duplicate workspace (distinct ids), and the per-entry counts are
exactly one (or zero without the flag). -/
theorem c2_other_workspaces_expansion (tmpl : RoleTemplate) (P : List String)
    (wss : List (Workspace × WorkspaceItem)) (doc : PermDoc)
    (hP : P.Nodup)
    (hI : (wss.map (fun p => p.2.id)).Nodup)
    (hPmem : ∀ s ∈ P, ((wss.find? (fun p => p.1.slug = s)).isSome) = true)
    (hres : compileRoleData tmpl P (wss.map (fun p => (p.1, some p.2))) = .ok doc) :
    doc.workspaces.Perm
      (P.map (primEntry wss tmpl) ++
        (if tmpl.other_workspaces.anyTrue then otherEntries wss tmpl P else []))
    ∧ doc.workspaces.Pairwise (fun a b => strLe a.id b.id = true)
    ∧ (doc.workspaces.map (fun e => e.id)).Nodup
    ∧ (∀ s ∈ P, doc.workspaces.count (primEntry wss tmpl s) = 1)
    ∧ (∀ p ∈ wss, P.contains p.1.slug = false →
        doc.workspaces.count (⟨p.2.id, tmpl.other_workspaces⟩ : WsEntry) =
          (if tmpl.other_workspaces.anyTrue then 1 else 0)) := by
  rw [compileRoleData_resolved tmpl P wss hPmem] at hres
  injection hres with hres'
  have hdoc : doc.workspaces = sortEntries (P.map (primEntry wss tmpl) ++
      (if tmpl.other_workspaces.anyTrue then otherEntries wss tmpl P else [])) := by
    rw [← hres']
  have hfindP : ∀ s ∈ P, ∃ q, wss.find? (fun p => p.1.slug = s) = some q ∧
      q ∈ wss ∧ q.1.slug = s ∧ idOf wss s = q.2.id := by
    intro s hs
    have hsome := hPmem s hs
    cases hfind : wss.find? (fun p => p.1.slug = s) with
    | none => rw [hfind] at hsome; cases hsome
    | some q =>
      refine ⟨q, rfl, List.mem_of_find?_eq_some hfind, by
        simpa using List.find?_some hfind, ?_⟩
      rw [idOf, hfind]
      rfl
  have hidinj : ∀ p ∈ wss, ∀ q ∈ wss, p.2.id = q.2.id → p = q := by
    intro p hp q hq hid
    exact List.inj_on_of_nodup_map hI hp hq hid
  have hdisj : ∀ s ∈ P, ∀ p ∈ wss, P.contains p.1.slug = false →
      idOf wss s ≠ p.2.id := by
    intro s hs p hp hnp hc
    rcases hfindP s hs with ⟨q, _, hqmem, hqslug, hqid⟩
    rw [hqid] at hc
    have hqp : q = p := hidinj q hqmem p hp hc
    have : P.contains q.1.slug = true := by
      rw [hqslug]
      exact List.elem_eq_true_of_mem hs
    rw [hqp, hnp] at this
    cases this
  have hidOfInj : ∀ s ∈ P, ∀ s' ∈ P, idOf wss s = idOf wss s' → s = s' := by
    intro s hs s' hs' hc
    rcases hfindP s hs with ⟨q, _, hqmem, hqslug, hqid⟩
    rcases hfindP s' hs' with ⟨q', _, hqmem', hqslug', hqid'⟩
    rw [hqid, hqid'] at hc
    have : q = q' := hidinj q hqmem q' hqmem' hc
    rw [← hqslug, ← hqslug', this]
  -- the filter predicate in the compiled list, translated to Bool form
  have hfilmem : ∀ p, p ∈ wss.filter (fun q => ¬ P.contains q.1.slug) ↔
      (p ∈ wss ∧ P.contains p.1.slug = false) := by
    intro p
    rw [List.mem_filter]
    constructor
    · rintro ⟨h1, h2⟩
      refine ⟨h1, ?_⟩
      have := of_decide_eq_true h2
      cases hcb : P.contains p.1.slug
      · rfl
      · exact absurd hcb this
    · rintro ⟨h1, h2⟩
      exact ⟨h1, by rw [h2]; decide⟩
  have hperm := sortEntries_perm (P.map (primEntry wss tmpl) ++
    (if tmpl.other_workspaces.anyTrue then otherEntries wss tmpl P else []))
  rw [← hdoc] at hperm
  refine ⟨hperm, hdoc ▸ sortEntries_sorted _, ?_, ?_, ?_⟩
  · have hids : (doc.workspaces.map (fun e => e.id)).Perm
        ((P.map (primEntry wss tmpl) ++
          (if tmpl.other_workspaces.anyTrue then otherEntries wss tmpl P else [])).map
          (fun e => e.id)) := hperm.map _
    rw [List.Perm.nodup_iff hids]
    rw [List.map_append]
    refine List.Nodup.append ?_ ?_ ?_
    · rw [List.map_map]
      exact List.Nodup.map_on
        (fun s hs s' hs' hc => hidOfInj s hs s' hs' hc) hP
    · by_cases hany : tmpl.other_workspaces.anyTrue = true
      · rw [if_pos hany]
        have hcollapse : ((otherEntries wss tmpl P).map (fun e => e.id)) =
            (wss.filter (fun p => ¬ P.contains p.1.slug)).map (fun p => p.2.id) := by
          rw [otherEntries, List.map_map]
          rfl
        rw [hcollapse]
        exact List.Sublist.nodup (List.Sublist.map _ (List.filter_sublist wss)) hI
      · rw [if_neg hany]
        simp
    · intro x hx hx'
      rcases List.mem_map.mp hx with ⟨e, he, rfl⟩
      rcases List.mem_map.mp he with ⟨s, hs, rfl⟩
      by_cases hany : tmpl.other_workspaces.anyTrue = true
      · rw [if_pos hany] at hx'
        rcases List.mem_map.mp hx' with ⟨e', he', heq⟩
        rcases List.mem_map.mp (by rw [otherEntries] at he'; exact he') with ⟨p, hpmem, rfl⟩
        rcases (hfilmem p).mp hpmem with ⟨hpw, hpnp⟩
        exact hdisj s hs p hpw hpnp heq.symm
      · rw [if_neg hany] at hx'
        simp at hx'
  · intro s hs
    rw [hperm.count_eq, List.count_append]
    have h1 : (P.map (primEntry wss tmpl)).count (primEntry wss tmpl s) = 1 := by
      apply count_map_eq_one hP hs
      intro x hx hc
      exact hidOfInj x hx s hs (congrArg WsEntry.id hc)
    have h2 : (if tmpl.other_workspaces.anyTrue then otherEntries wss tmpl P
        else []).count (primEntry wss tmpl s) = 0 := by
      by_cases hany : tmpl.other_workspaces.anyTrue = true
      · rw [if_pos hany, otherEntries]
        apply count_map_eq_zero
        intro p hp hc
        rcases (hfilmem p).mp hp with ⟨hpw, hpnp⟩
        exact hdisj s hs p hpw hpnp (congrArg WsEntry.id hc).symm
      · rw [if_neg hany]
        rfl
    omega
  · intro p hp hnp
    rw [hperm.count_eq, List.count_append]
    have h1 : (P.map (primEntry wss tmpl)).count
        (⟨p.2.id, tmpl.other_workspaces⟩ : WsEntry) = 0 := by
      apply count_map_eq_zero
      intro s hs hc
      exact hdisj s hs p hp hnp (congrArg WsEntry.id hc)
    by_cases hany : tmpl.other_workspaces.anyTrue = true
    · rw [if_pos hany, if_pos hany, h1, otherEntries]
      have hpmem : p ∈ wss.filter (fun q => ¬ P.contains q.1.slug) :=
        (hfilmem p).mpr ⟨hp, hnp⟩
      have hfilnodup : (wss.filter (fun q => ¬ P.contains q.1.slug)).Nodup :=
        List.Sublist.nodup (List.filter_sublist wss) (List.Nodup.of_map _ hI)
      have hinj2 : ∀ x ∈ wss.filter (fun q => ¬ P.contains q.1.slug),
          (fun (q : Workspace × WorkspaceItem) =>
            (⟨q.2.id, tmpl.other_workspaces⟩ : WsEntry)) x =
          (fun (q : Workspace × WorkspaceItem) =>
            (⟨q.2.id, tmpl.other_workspaces⟩ : WsEntry)) p → x = p := by
        intro x hx hc
        exact hidinj x ((hfilmem x).mp hx).1 p hp (congrArg WsEntry.id hc)
      have h2 := count_map_eq_one hfilnodup hpmem hinj2
      rw [h2]
    · rw [if_neg hany, if_neg hany, h1]
      rfl

/-- **C2 witness.** The expansion theorem applied to desired workspaces
`a`, `b`, `c` with primary set `["a"]` and `other_workspaces.read_patients`
true: entries for `a` (primary rules) and `b`, `c` (other rules), sorted by
remote id, no duplicates. -/
theorem c2_witness :
    sampleDoc.workspaces.Perm
      (["a"].map (primEntry sampleWss tmplStandard) ++
        (if tmplStandard.other_workspaces.anyTrue then
          otherEntries sampleWss tmplStandard ["a"] else []))
    ∧ sampleDoc.workspaces.Pairwise (fun a b => strLe a.id b.id = true)
    ∧ (sampleDoc.workspaces.map (fun e => e.id)).Nodup
    ∧ (∀ s ∈ ["a"], sampleDoc.workspaces.count (primEntry sampleWss tmplStandard s) = 1)
    ∧ (∀ p ∈ sampleWss, ["a"].contains p.1.slug = false →
        sampleDoc.workspaces.count (⟨p.2.id, tmplStandard.other_workspaces⟩ : WsEntry) =
          (if tmplStandard.other_workspaces.anyTrue then 1 else 0)) :=
  c2_other_workspaces_expansion tmplStandard ["a"] sampleWss sampleDoc
    (by decide) (by decide) (by decide)
    (by
      rw [compileRoleData_resolved tmplStandard ["a"] sampleWss (by decide)]
      exact congrArg Except.ok (by decide))

/-! ## C1: idempotence of reconciliation -/

/-- Counting lemma: if every element classifies as unchanged, the create and
update counts are zero. -/
theorem counts_zero_of_all_unchanged {α : Type} {l : List α} {f : α → Action}
    (h : ∀ a ∈ l, f a = .unchanged) :
    (l.map f).count .create = 0 ∧ (l.map f).count .update = 0 := by
  constructor
  · rw [List.count_eq_zero]
    intro hc
    rcases List.mem_map.mp hc with ⟨a, ha, hfa⟩
    rw [h a ha] at hfa
    cases hfa
  · rw [List.count_eq_zero]
    intro hc
    rcases List.mem_map.mp hc with ⟨a, ha, hfa⟩
    rw [h a ha] at hfa
    cases hfa

theorem wsAssocOf_eq (inp : SyncInputs) (remote : RemoteState) :
    wsAssocOf inp remote = inp.workspaces.map (fun w =>
      (w, lastMatch? (fun it => w.slug = it.slug) remote.workspaces)) := by
  rw [wsAssocOf, assocFst_eq_map, List.map_map]
  apply List.map_congr_left
  intro w _
  simp only [Function.comp_apply]
  cases h : lastMatch? (fun it => decide (w.slug = it.slug)) remote.workspaces with
  | some it => rfl
  | none => rfl

theorem wsApplied_fst (inp : SyncInputs) (env : Env) (remote : RemoteState) :
    (wsAppliedOf inp env remote).map (fun q => q.1) = inp.workspaces := by
  rw [wsAppliedOf, wsAssocOf_eq, List.map_map, List.map_map]
  conv_rhs => rw [← List.map_id inp.workspaces]
  apply List.map_congr_left
  intro w _
  rfl

theorem wsApplied_props (inp : SyncInputs) (env : Env) (remote : RemoteState) :
    ∀ q ∈ wsAppliedOf inp env remote, q.2.slug = q.1.slug ∧ q.2.name = q.1.name := by
  intro q hq
  rw [wsAppliedOf, wsAssocOf_eq, List.map_map] at hq
  rcases List.mem_map.mp hq with ⟨w, _, rfl⟩
  simp only [Function.comp_apply]
  cases h : lastMatch? (fun it => decide (w.slug = it.slug)) remote.workspaces with
  | none => exact ⟨rfl, rfl⟩
  | some it =>
    have hslug : w.slug = it.slug := by
      have := lastMatch?_prop h
      simpa using this
    have happ : applyWorkspace env.freshWs (w, some it) =
        if it.name ≠ w.name then { it with name := w.name } else it := rfl
    show (applyWorkspace env.freshWs (w, some it)).slug = w.slug ∧
      (applyWorkspace env.freshWs (w, some it)).name = w.name
    rw [happ]
    by_cases hname : it.name ≠ w.name
    · rw [if_pos hname]
      exact ⟨hslug.symm, rfl⟩
    · rw [if_neg hname]
      exact ⟨hslug.symm, not_not.mp hname⟩

theorem compileRoleData_shape {tmpl : RoleTemplate} {rws : List String}
    {wss : List (Workspace × Option WorkspaceItem)} {d : PermDoc}
    (h : compileRoleData tmpl rws wss = .ok d) :
    ∃ entries, d = ⟨tmpl.organization, sortEntries entries, none, none⟩ := by
  rw [compileRoleData] at h
  cases hm : rws.mapM (fun slug =>
      match wss.find? (fun p => p.1.slug = slug) with
      | none => Except.error slug
      | some (_, none) => Except.error slug
      | some (_, some it) => Except.ok (⟨it.id, tmpl.primary_workspaces⟩ : WsEntry)) with
  | error e =>
    rw [hm] at h
    simp only [exceptBind_error] at h
    exact Except.noConfusion h
  | ok primary =>
    rw [hm] at h
    simp only [exceptBind_ok] at h
    by_cases hany : tmpl.other_workspaces.anyTrue = true
    · rw [if_pos hany] at h
      cases ho : (wss.filter (fun p => ¬ rws.contains p.1.slug)).mapM
          (fun p =>
            match p.2 with
            | none => Except.error p.1.slug
            | some it => Except.ok (⟨it.id, tmpl.other_workspaces⟩ : WsEntry)) with
      | error e =>
        rw [ho] at h
        simp only [exceptBind_error] at h
        exact Except.noConfusion h
      | ok others =>
        rw [ho] at h
        simp only [exceptBind_ok, exceptBind_pure, exceptPure_eq] at h
        injection h with h'
        exact ⟨primary ++ others, h'.symm⟩
    · rw [if_neg hany] at h
      simp only [exceptBind_ok, exceptBind_pure, exceptPure_eq] at h
      injection h with h'
      exact ⟨primary, h'.symm⟩

theorem compileRoles_inv {templates : List (String × RoleTemplate)}
    {wss : List (Workspace × Option WorkspaceItem)} :
    ∀ {us : List (String × UserRec)} {acc out : List RoleRec},
      compileRoles templates wss us acc = .ok out →
      ((acc.map (fun r => r.name)).Nodup → (out.map (fun r => r.name)).Nodup) ∧
      ((∀ r ∈ acc, SortedData r) → ∀ r ∈ out, SortedData r) := by
  intro us
  induction us with
  | nil =>
    intro acc out h
    injection h with h'
    rw [← h']
    exact ⟨fun hn => hn, fun hs => hs⟩
  | cons p rest ih =>
    intro acc out h
    rw [compileRoles] at h
    cases hname : roleNameOf? p.2 with
    | none => rw [hname] at h; cases h
    | some rname =>
      rw [hname] at h
      dsimp only at h
      by_cases hmem : acc.any (fun r => r.name = rname) = true
      · rw [if_pos hmem] at h
        exact ih h
      · rw [if_neg hmem] at h
        cases hlast : (p.2.workspaces.map (fun q => q.2.role)).getLast? with
        | none => rw [hlast] at h; cases h
        | some tname =>
          rw [hlast] at h
          dsimp only at h
          cases htmpl : dictFind? tname templates with
          | none => rw [htmpl] at h; cases h
          | some tmpl =>
            rw [htmpl] at h
            dsimp only at h
            cases hdata : compileRoleData tmpl (p.2.workspaces.map (fun q => q.1)) wss with
            | error e =>
              rw [hdata] at h
              simp only [exceptBind_error] at h
              exact Except.noConfusion h
            | ok data =>
              rw [hdata] at h
              simp only [exceptBind_ok] at h
              rcases ih h with ⟨hnod, hsort⟩
              constructor
              · intro hn
                apply hnod
                rw [List.map_append]
                refine List.Nodup.append hn (by simp) ?_
                intro x hx hx'
                rcases List.mem_singleton.mp (by simpa using hx') with rfl
                rcases List.mem_map.mp hx with ⟨r, hr, hrn⟩
                exact hmem (List.any_eq_true.mpr ⟨r, hr, by simp [hrn]⟩)
              · intro hs
                apply hsort
                intro r hr
                rcases List.mem_append.mp hr with h1 | h1
                · exact hs r h1
                · rcases List.mem_singleton.mp h1 with rfl
                  rcases compileRoleData_shape hdata with ⟨entries, hent⟩
                  refine ⟨?_, ?_, ?_⟩
                  · show sortEntries data.workspaces = data.workspaces
                    rw [hent]
                    exact sortEntries_idem entries
                  · show data.priv = none
                    rw [hent]
                  · show data.userField = none
                    rw [hent]

theorem rAssocOf_eq (roles : List RoleRec) (remote : RemoteState) :
    rAssocOf roles remote = roles.map (fun r =>
      (r, lastMatch? (fun it => r.name = it.name) remote.roles)) := by
  rw [rAssocOf, assocFst_eq_map, List.map_map]
  apply List.map_congr_left
  intro r _
  simp only [Function.comp_apply]
  cases h : lastMatch? (fun it => decide (r.name = it.name)) remote.roles with
  | some it => rfl
  | none => rfl

theorem rApplied_fst (env : Env) (roles : List RoleRec) (remote : RemoteState) :
    (rAppliedOf env roles remote).map (fun q => q.1) = roles := by
  rw [rAppliedOf, rAssocOf_eq, List.map_map, List.map_map]
  conv_rhs => rw [← List.map_id roles]
  apply List.map_congr_left
  intro r _
  rfl

theorem roleView_injectDefaults {d : PermDoc} (it : RoleItem)
    (hws : sortEntries d.workspaces = d.workspaces)
    (hpriv : d.priv = none) (huser : d.userField = none)
    (hperm : it.permissions = injectDefaults d) :
    roleView it = d := by
  rw [roleView, hperm]
  show (⟨d.organization, sortEntries d.workspaces, none, none⟩ : PermDoc) = d
  rw [hws, ← hpriv, ← huser]

theorem rApplied_props (env : Env) (roles : List RoleRec) (remote : RemoteState)
    (hsorted : ∀ r ∈ roles, SortedData r) :
    ∀ q ∈ rAppliedOf env roles remote,
      q.2.name = q.1.name ∧ roleView q.2 = q.1.data := by
  intro q hq
  rw [rAppliedOf, rAssocOf_eq, List.map_map] at hq
  rcases List.mem_map.mp hq with ⟨r, hr, rfl⟩
  rcases hsorted r hr with ⟨hws, hpriv, huser⟩
  simp only [Function.comp_apply]
  cases h : lastMatch? (fun it => decide (r.name = it.name)) remote.roles with
  | none =>
    constructor
    · rfl
    · exact roleView_injectDefaults _ hws hpriv huser rfl
  | some it =>
    have hname : it.name = r.name := by
      have := lastMatch?_prop h
      simp only [decide_eq_true_eq] at this
      exact this.symm
    have happ : applyRole env.freshRole (r, some it) =
        if r.data ≠ roleView it then { it with permissions := injectDefaults r.data }
        else it := rfl
    show (applyRole env.freshRole (r, some it)).name = r.name ∧
      roleView (applyRole env.freshRole (r, some it)) = r.data
    rw [happ]
    by_cases hneq : r.data ≠ roleView it
    · rw [if_pos hneq]
      exact ⟨hname, roleView_injectDefaults _ hws hpriv huser rfl⟩
    · rw [if_neg hneq]
      exact ⟨hname, (not_not.mp hneq).symm⟩

theorem uAssocOf_eq (ups : List (UserRec × String)) (remote : RemoteState) :
    uAssocOf ups remote = ups.map (fun u =>
      (u, lastMatch? (fun it => u.1.email = it.email) remote.users)) := by
  rw [uAssocOf, assocFst_eq_map, List.map_map]
  apply List.map_congr_left
  intro u _
  simp only [Function.comp_apply]
  cases h : lastMatch? (fun it => decide (u.1.email = it.email)) remote.users with
  | some it => rfl
  | none => rfl

theorem uApplied_fst (env : Env) (ups : List (UserRec × String)) (remote : RemoteState) :
    (uAppliedOf env ups remote).map (fun q => q.1) = ups := by
  rw [uAppliedOf, uAssocOf_eq, List.map_map, List.map_map]
  conv_rhs => rw [← List.map_id ups]
  apply List.map_congr_left
  intro u _
  rfl

theorem uApplied_props (env : Env) (ups : List (UserRec × String)) (remote : RemoteState) :
    ∀ q ∈ uAppliedOf env ups remote,
      q.2.email = q.1.1.email ∧ q.2.name = q.1.1.name ∧ q.2.roleId = q.1.2 ∧
      (q.2.active = q.1.1.active ∨
        (q.2.active = env.createdActive q.1.1.email ∧
          ∀ it ∈ remote.users, it.email ≠ q.1.1.email)) := by
  intro q hq
  rw [uAppliedOf, uAssocOf_eq, List.map_map] at hq
  rcases List.mem_map.mp hq with ⟨u, _, rfl⟩
  simp only [Function.comp_apply]
  cases h : lastMatch? (fun it => decide (u.1.email = it.email)) remote.users with
  | none =>
    refine ⟨rfl, rfl, rfl, Or.inr ⟨rfl, ?_⟩⟩
    intro it hit
    have := (lastMatch?_eq_none_iff _ _).mp h it hit
    simp only [decide_eq_false_iff_not] at this
    exact fun hc => this hc.symm
  | some it =>
    have hemail : it.email = u.1.email := by
      have := lastMatch?_prop h
      simp only [decide_eq_true_eq] at this
      exact this.symm
    have happ : applyUser env.freshUser env.createdActive (u, some it) =
        if u.1.name ≠ it.name ∨ u.1.active ≠ it.active ∨ u.2 ≠ it.roleId then
          { it with name := u.1.name, active := u.1.active, roleId := u.2 }
        else it := rfl
    show (applyUser env.freshUser env.createdActive (u, some it)).email = u.1.email ∧ _
    rw [happ]
    by_cases hcond : u.1.name ≠ it.name ∨ u.1.active ≠ it.active ∨ u.2 ≠ it.roleId
    · rw [if_pos hcond]
      exact ⟨hemail, rfl, rfl, Or.inl rfl⟩
    · rw [if_neg hcond]
      push_neg at hcond
      exact ⟨hemail, hcond.1.symm, hcond.2.2.symm, Or.inl hcond.2.1.symm⟩

theorem ups_spec {R : List (RoleRec × RoleItem)} :
    ∀ {us : List (String × UserRec)} {out : List (UserRec × String)},
      us.mapM (fun p => (userRoleId? R p.2).map (fun rid => (p.2, rid))) = some out →
      out.map (fun q => q.1) = us.map (fun p => p.2) := by
  intro us
  induction us with
  | nil =>
    intro out h
    injection h with h'
    rw [← h']
    rfl
  | cons p rest ih =>
    intro out h
    rw [List.mapM_cons] at h
    cases hrid : userRoleId? R p.2 with
    | none => rw [hrid] at h; cases h
    | some rid =>
      rw [hrid] at h
      cases hrest : rest.mapM (fun p => (userRoleId? R p.2).map (fun rid => (p.2, rid))) with
      | none =>
        rw [hrest] at h
        cases h
      | some outrest =>
        rw [hrest] at h
        injection h with h'
        rw [← h']
        simp only [List.map_cons]
        rw [ih hrest]

theorem runSync_inv {inp : SyncInputs} {env : Env} {remote : RemoteState} {o : Outcome}
    (h : runSync inp env remote = some o) :
    ∃ roles ups, rolesOf inp env remote = .ok roles ∧
      upsOf inp env roles remote = some ups ∧
      o.wsCreated = ((wsAssocOf inp remote).map classifyWorkspace).count .create ∧
      o.wsUpdated = ((wsAssocOf inp remote).map classifyWorkspace).count .update ∧
      o.roleCreated = ((rAssocOf roles remote).map classifyRole).count .create ∧
      o.roleUpdated = ((rAssocOf roles remote).map classifyRole).count .update ∧
      o.userCreated = ((uAssocOf ups remote).map classifyUser).count .create ∧
      o.userUpdated = ((uAssocOf ups remote).map classifyUser).count .update ∧
      o.after = ⟨wsAfterOf inp env remote, rAfterOf env roles remote,
        uAfterOf env ups remote⟩ := by
  simp only [runSync] at h
  cases hr : rolesOf inp env remote with
  | error e =>
    rw [hr] at h
    exact Option.noConfusion h
  | ok roles =>
    rw [hr] at h
    dsimp only at h
    cases hu : upsOf inp env roles remote with
    | none =>
      rw [hu] at h
      exact Option.noConfusion h
    | some ups =>
      rw [hu] at h
      dsimp only at h
      injection h with h'
      refine ⟨roles, ups, rfl, hu, ?_, ?_, ?_, ?_, ?_, ?_, ?_⟩ <;> rw [← h']

theorem wsPass_idem (inp : SyncInputs) (env : Env) (remote : RemoteState)
    (R : List RoleItem) (U : List UserItem)
    (hW : (inp.workspaces.map (fun w => w.slug)).Nodup) :
    wsAppliedOf inp env ⟨wsAfterOf inp env remote, R, U⟩ = wsAppliedOf inp env remote ∧
    ∀ p ∈ wsAssocOf inp ⟨wsAfterOf inp env remote, R, U⟩,
      classifyWorkspace p = .unchanged := by
  have hfst := wsApplied_fst inp env remote
  have hprops := wsApplied_props inp env remote
  have hnd : ((wsAppliedOf inp env remote).map (fun q => q.1.slug)).Nodup := by
    have hx : (wsAppliedOf inp env remote).map (fun q => q.1.slug)
        = ((wsAppliedOf inp env remote).map (fun q => q.1)).map (fun w => w.slug) := by
      rw [List.map_map]
      rfl
    rw [hx, hfst]
    exact hW
  have hrest : ∀ it ∈ remote.workspaces.filter
      (fun it => ¬ inp.workspaces.any (fun w => w.slug = it.slug)),
      ∀ q ∈ wsAppliedOf inp env remote, it.slug ≠ q.1.slug := by
    intro it hit q hq heq
    rcases List.mem_filter.mp hit with ⟨_, hpred⟩
    have hq1 : q.1 ∈ inp.workspaces := by
      rw [← hfst]
      exact List.mem_map.mpr ⟨q, hq, rfl⟩
    exact (of_decide_eq_true hpred)
      (List.any_eq_true.mpr ⟨q.1, hq1, by simp [heq]⟩)
  have hx2 : inp.workspaces.map (fun w => (w, (none : Option WorkspaceItem)))
      = (wsAppliedOf inp env remote).map (fun q => (q.1, none)) := by
    rw [← hfst, List.map_map]
    rfl
  have hassoc : wsAssocOf inp ⟨wsAfterOf inp env remote, R, U⟩
      = (wsAppliedOf inp env remote).map (fun q => (q.1, some q.2)) := by
    show assocFst (fun w => w.slug) (fun it => it.slug)
        (inp.workspaces.map (fun w => (w, none)))
        ((wsAppliedOf inp env remote).map (fun p => p.2) ++
          remote.workspaces.filter
            (fun it => ¬ inp.workspaces.any (fun w => w.slug = it.slug)))
      = (wsAppliedOf inp env remote).map (fun q => (q.1, some q.2))
    rw [hx2]
    exact assocFst_payload (fun w => w.slug) (fun it => it.slug)
      (wsAppliedOf inp env remote) _
      (fun q hq => (hprops q hq).1) hnd hrest
  constructor
  · show (wsAssocOf inp ⟨wsAfterOf inp env remote, R, U⟩).map
        (fun p => (p.1, applyWorkspace env.freshWs p)) = wsAppliedOf inp env remote
    rw [hassoc, List.map_map]
    conv_rhs => rw [← List.map_id (wsAppliedOf inp env remote)]
    apply List.map_congr_left
    intro q hq
    have hname : q.2.name = q.1.name := (hprops q hq).2
    show (q.1, applyWorkspace env.freshWs (q.1, some q.2)) = id q
    have happ : applyWorkspace env.freshWs (q.1, some q.2)
        = if q.2.name ≠ q.1.name then { q.2 with name := q.1.name } else q.2 := rfl
    rw [happ, if_neg (not_not_intro hname)]
    rfl
  · intro p hp
    rw [hassoc] at hp
    rcases List.mem_map.mp hp with ⟨q, hq, rfl⟩
    have hname : q.2.name = q.1.name := (hprops q hq).2
    show classifyWorkspace (q.1, some q.2) = .unchanged
    have hcls : classifyWorkspace (q.1, some q.2)
        = if q.2.name ≠ q.1.name then Action.update else Action.unchanged := rfl
    rw [hcls, if_neg (not_not_intro hname)]

theorem rolePass_idem (env : Env) (roles : List RoleRec) (remote : RemoteState)
    (W : List WorkspaceItem) (U : List UserItem)
    (hrnd : (roles.map (fun r => r.name)).Nodup)
    (hsorted : ∀ r ∈ roles, SortedData r) :
    rAppliedOf env roles ⟨W, rAfterOf env roles remote, U⟩ = rAppliedOf env roles remote ∧
    ∀ p ∈ rAssocOf roles ⟨W, rAfterOf env roles remote, U⟩,
      classifyRole p = .unchanged := by
  have hfst := rApplied_fst env roles remote
  have hprops := rApplied_props env roles remote hsorted
  have hnd : ((rAppliedOf env roles remote).map (fun q => q.1.name)).Nodup := by
    have hx : (rAppliedOf env roles remote).map (fun q => q.1.name)
        = ((rAppliedOf env roles remote).map (fun q => q.1)).map (fun r => r.name) := by
      rw [List.map_map]
      rfl
    rw [hx, hfst]
    exact hrnd
  have hrest : ∀ it ∈ remote.roles.filter
      (fun it => ¬ roles.any (fun r => r.name = it.name)),
      ∀ q ∈ rAppliedOf env roles remote, it.name ≠ q.1.name := by
    intro it hit q hq heq
    rcases List.mem_filter.mp hit with ⟨_, hpred⟩
    have hq1 : q.1 ∈ roles := by
      rw [← hfst]
      exact List.mem_map.mpr ⟨q, hq, rfl⟩
    exact (of_decide_eq_true hpred)
      (List.any_eq_true.mpr ⟨q.1, hq1, by simp [heq]⟩)
  have hx2 : roles.map (fun r => (r, (none : Option RoleItem)))
      = (rAppliedOf env roles remote).map (fun q => (q.1, none)) := by
    nth_rewrite 1 [← hfst]
    rw [List.map_map]
    rfl
  have hassoc : rAssocOf roles ⟨W, rAfterOf env roles remote, U⟩
      = (rAppliedOf env roles remote).map (fun q => (q.1, some q.2)) := by
    show assocFst (fun r => r.name) (fun it => it.name)
        (roles.map (fun r => (r, none)))
        ((rAppliedOf env roles remote).map (fun p => p.2) ++
          remote.roles.filter (fun it => ¬ roles.any (fun r => r.name = it.name)))
      = (rAppliedOf env roles remote).map (fun q => (q.1, some q.2))
    rw [hx2]
    exact assocFst_payload (fun r => r.name) (fun it => it.name)
      (rAppliedOf env roles remote) _
      (fun q hq => (hprops q hq).1) hnd hrest
  constructor
  · show (rAssocOf roles ⟨W, rAfterOf env roles remote, U⟩).map
        (fun p => (p.1, applyRole env.freshRole p)) = rAppliedOf env roles remote
    rw [hassoc, List.map_map]
    conv_rhs => rw [← List.map_id (rAppliedOf env roles remote)]
    apply List.map_congr_left
    intro q hq
    have hview : roleView q.2 = q.1.data := (hprops q hq).2
    show (q.1, applyRole env.freshRole (q.1, some q.2)) = id q
    have happ : applyRole env.freshRole (q.1, some q.2)
        = if q.1.data ≠ roleView q.2 then { q.2 with permissions := injectDefaults q.1.data }
          else q.2 := rfl
    rw [happ, if_neg (not_not_intro hview.symm)]
    rfl
  · intro p hp
    rw [hassoc] at hp
    rcases List.mem_map.mp hp with ⟨q, hq, rfl⟩
    have hview : roleView q.2 = q.1.data := (hprops q hq).2
    show classifyRole (q.1, some q.2) = .unchanged
    have hcls : classifyRole (q.1, some q.2)
        = if q.1.data ≠ roleView q.2 then Action.update else Action.unchanged := rfl
    rw [hcls, if_neg (not_not_intro hview.symm)]

theorem userPass_idem (env : Env) (ups : List (UserRec × String)) (remote : RemoteState)
    (W : List WorkspaceItem) (R : List RoleItem)
    (hund : (ups.map (fun u => u.1.email)).Nodup)
    (hact : ∀ u ∈ ups, (∀ it ∈ remote.users, it.email ≠ u.1.email) →
      env.createdActive u.1.email = u.1.active) :
    ∀ p ∈ uAssocOf ups ⟨W, R, uAfterOf env ups remote⟩, classifyUser p = .unchanged := by
  have hfst := uApplied_fst env ups remote
  have hprops := uApplied_props env ups remote
  have hnd : ((uAppliedOf env ups remote).map (fun q => q.1.1.email)).Nodup := by
    have hx : (uAppliedOf env ups remote).map (fun q => q.1.1.email)
        = ((uAppliedOf env ups remote).map (fun q => q.1)).map (fun u => u.1.email) := by
      rw [List.map_map]
      rfl
    rw [hx, hfst]
    exact hund
  have hrest : ∀ it ∈ remote.users.filter
      (fun it => ¬ ups.any (fun u => u.1.email = it.email)),
      ∀ q ∈ uAppliedOf env ups remote, it.email ≠ q.1.1.email := by
    intro it hit q hq heq
    rcases List.mem_filter.mp hit with ⟨_, hpred⟩
    have hq1 : q.1 ∈ ups := by
      rw [← hfst]
      exact List.mem_map.mpr ⟨q, hq, rfl⟩
    exact (of_decide_eq_true hpred)
      (List.any_eq_true.mpr ⟨q.1, hq1, by simp [heq]⟩)
  have hx2 : ups.map (fun u => (u, (none : Option UserItem)))
      = (uAppliedOf env ups remote).map (fun q => (q.1, none)) := by
    nth_rewrite 1 [← hfst]
    rw [List.map_map]
    rfl
  have hassoc : uAssocOf ups ⟨W, R, uAfterOf env ups remote⟩
      = (uAppliedOf env ups remote).map (fun q => (q.1, some q.2)) := by
    show assocFst (fun u => u.1.email) (fun it => it.email)
        (ups.map (fun u => (u, none)))
        ((uAppliedOf env ups remote).map (fun p => p.2) ++
          remote.users.filter (fun it => ¬ ups.any (fun u => u.1.email = it.email)))
      = (uAppliedOf env ups remote).map (fun q => (q.1, some q.2))
    rw [hx2]
    exact assocFst_payload (fun u => u.1.email) (fun it => it.email)
      (uAppliedOf env ups remote) _
      (fun q hq => (hprops q hq).1) hnd hrest
  intro p hp
  rw [hassoc] at hp
  rcases List.mem_map.mp hp with ⟨q, hq, rfl⟩
  obtain ⟨hemail, hname, hrole, hactq⟩ := hprops q hq
  have hactive : q.2.active = q.1.1.active := by
    rcases hactq with h | ⟨hca, hnomatch⟩
    · exact h
    · have hq1 : q.1 ∈ ups := by
        rw [← hfst]
        exact List.mem_map.mpr ⟨q, hq, rfl⟩
      rw [hca]
      exact hact q.1 hq1 hnomatch
  show classifyUser (q.1, some q.2) = .unchanged
  have hcls : classifyUser (q.1, some q.2)
      = if q.1.1.name ≠ q.2.name ∨ q.1.1.active ≠ q.2.active ∨ q.1.2 ≠ q.2.roleId
        then Action.update else Action.unchanged := rfl
  have hnc : ¬ (q.1.1.name ≠ q.2.name ∨ q.1.1.active ≠ q.2.active ∨
      q.1.2 ≠ q.2.roleId) := by
    intro hc
    rcases hc with h | h | h
    · exact h hname.symm
    · exact h hactive.symm
    · exact h hrole.symm
  rw [hcls, if_neg hnc]

/-- **C1 counterexample.** The claim promises an all-`Unchanged` second run
unconditionally.  But `pk.users.create` (line 589) is called without the
desired `active` flag, so the created remote user carries whatever `active`
value the server chooses.  With a desired user whose `active` is `False`
against a server that activates new users, the second run classifies that
user as Update: its `userUpdated` count is 1, not 0. -/
theorem c1_counterexample :
    ((runSync inpC1 envActiveTrue emptyRemote).bind
        (fun o => runSync inpC1 envActiveTrue o.after)).map
      (fun o => o.userUpdated) = some 1 := by decide

/-- **C1 (amended).** Idempotence of reconciliation holds under the
assumptions the source implicitly relies on: the desired workspace slugs
and the desired user emails are duplicate-free, and every user created in
the first run (no remote user carried its email) comes back from the remote
with exactly the desired `active` flag — the flag `users.create` never
sends.  Then the second run, on the remote state the first run left behind,
classifies every workspace, role, and user as Unchanged: all six
Create/Update counts are zero. -/
theorem c1_idempotence_amended (inp : SyncInputs) (env : Env) (remote : RemoteState)
    (o1 o2 : Outcome)
    (hW : (inp.workspaces.map (fun w => w.slug)).Nodup)
    (hU : (inp.users.map (fun p => p.2.email)).Nodup)
    (h1 : runSync inp env remote = some o1)
    (h2 : runSync inp env o1.after = some o2)
    (hact : ∀ p ∈ inp.users, (∀ it ∈ remote.users, it.email ≠ p.2.email) →
      env.createdActive p.2.email = p.2.active) :
    o2.wsCreated = 0 ∧ o2.wsUpdated = 0 ∧ o2.roleCreated = 0 ∧
      o2.roleUpdated = 0 ∧ o2.userCreated = 0 ∧ o2.userUpdated = 0 := by
  obtain ⟨roles, ups, hr1, hu1, _, _, _, _, _, _, hafter⟩ := runSync_inv h1
  obtain ⟨roles2, ups2, hr2, hu2, hwc, hwu, hrc, hru, huc, huu, _⟩ := runSync_inv h2
  rw [hafter] at hr2 hu2 hwc hwu hrc hru huc huu
  have hr1' : compileRoles inp.templates
      ((wsAppliedOf inp env remote).map (fun p => (p.1, some p.2))) inp.users []
      = .ok roles := hr1
  have hrnd : (roles.map (fun r => r.name)).Nodup :=
    (compileRoles_inv hr1').1 (by simp)
  have hrsort : ∀ r ∈ roles, SortedData r :=
    (compileRoles_inv hr1').2 (by intro r hr; exact absurd hr (List.not_mem_nil r))
  obtain ⟨hwapp2, hwcls⟩ := wsPass_idem inp env remote
    (rAfterOf env roles remote) (uAfterOf env ups remote) hW
  have hroleseq : rolesOf inp env
      ⟨wsAfterOf inp env remote, rAfterOf env roles remote, uAfterOf env ups remote⟩
      = rolesOf inp env remote := by
    show compileRoles inp.templates
        ((wsAppliedOf inp env
            ⟨wsAfterOf inp env remote, rAfterOf env roles remote,
              uAfterOf env ups remote⟩).map
          (fun p => (p.1, some p.2))) inp.users [] = rolesOf inp env remote
    rw [hwapp2]
    rfl
  rw [hroleseq, hr1] at hr2
  injection hr2 with hre
  subst hre
  obtain ⟨hrapp2, hrcls⟩ := rolePass_idem env roles remote
    (wsAfterOf inp env remote) (uAfterOf env ups remote) hrnd hrsort
  have hupseq : upsOf inp env roles
      ⟨wsAfterOf inp env remote, rAfterOf env roles remote, uAfterOf env ups remote⟩
      = upsOf inp env roles remote := by
    show inp.users.mapM (fun p =>
        (userRoleId? (rAppliedOf env roles
            ⟨wsAfterOf inp env remote, rAfterOf env roles remote,
              uAfterOf env ups remote⟩)
          p.2).map (fun rid => (p.2, rid))) = upsOf inp env roles remote
    rw [hrapp2]
    rfl
  rw [hupseq, hu1] at hu2
  injection hu2 with hue
  subst hue
  have hu1' : inp.users.mapM (fun p =>
      (userRoleId? (rAppliedOf env roles remote) p.2).map (fun rid => (p.2, rid)))
      = some ups := hu1
  have hspec : ups.map (fun q => q.1) = inp.users.map (fun p => p.2) := ups_spec hu1'
  have hupsnd : (ups.map (fun u => u.1.email)).Nodup := by
    have hx : ups.map (fun u => u.1.email)
        = (ups.map (fun q => q.1)).map (fun u => u.email) := by
      rw [List.map_map]
      rfl
    rw [hx, hspec, List.map_map]
    exact hU
  have hact' : ∀ u ∈ ups, (∀ it ∈ remote.users, it.email ≠ u.1.email) →
      env.createdActive u.1.email = u.1.active := by
    intro u hu hno
    have hm : u.1 ∈ inp.users.map (fun p => p.2) := by
      rw [← hspec]
      exact List.mem_map.mpr ⟨u, hu, rfl⟩
    rcases List.mem_map.mp hm with ⟨p, hp, hpe⟩
    have := hact p hp (by rw [hpe]; exact hno)
    rw [hpe] at this
    exact this
  have hucls := userPass_idem env ups remote
    (wsAfterOf inp env remote) (rAfterOf env roles remote) hupsnd hact'
  refine ⟨?_, ?_, ?_, ?_, ?_, ?_⟩
  · rw [hwc]
    exact (counts_zero_of_all_unchanged hwcls).1
  · rw [hwu]
    exact (counts_zero_of_all_unchanged hwcls).2
  · rw [hrc]
    exact (counts_zero_of_all_unchanged hrcls).1
  · rw [hru]
    exact (counts_zero_of_all_unchanged hrcls).2
  · rw [huc]
    exact (counts_zero_of_all_unchanged hucls).1
  · rw [huu]
    exact (counts_zero_of_all_unchanged hucls).2

/-- **C1 witness.** The amended theorem applied to the concrete scenario
whose remote reports created users with the desired `active` flag: both
runs succeed and the second run's six Create/Update counts are all zero. -/
theorem c1_witness :
    ((runSync inpC1 envActiveFalse emptyRemote).bind
        (fun o => runSync inpC1 envActiveFalse o.after)).map
      (fun o => (o.wsCreated, o.wsUpdated, o.roleCreated, o.roleUpdated,
        o.userCreated, o.userUpdated)) = some (0, 0, 0, 0, 0, 0) := by
  have h1 : (runSync inpC1 envActiveFalse emptyRemote).isSome = true := by decide
  have h2 : ((runSync inpC1 envActiveFalse emptyRemote).bind
      (fun o => runSync inpC1 envActiveFalse o.after)).isSome = true := by decide
  obtain ⟨o1, ho1⟩ := Option.isSome_iff_exists.mp h1
  have h2' : (runSync inpC1 envActiveFalse o1.after).isSome = true := by
    rw [ho1] at h2
    exact h2
  obtain ⟨o2, ho2⟩ := Option.isSome_iff_exists.mp h2'
  have hmain := c1_idempotence_amended inpC1 envActiveFalse emptyRemote o1 o2
    (by decide) (by decide) ho1 ho2 (by decide)
  rw [ho1]
  show ((runSync inpC1 envActiveFalse o1.after).map
    (fun o => (o.wsCreated, o.wsUpdated, o.roleCreated, o.roleUpdated,
      o.userCreated, o.userUpdated))) = some (0, 0, 0, 0, 0, 0)
  rw [ho2]
  obtain ⟨e1, e2, e3, e4, e5, e6⟩ := hmain
  show some (o2.wsCreated, o2.wsUpdated, o2.roleCreated, o2.roleUpdated,
    o2.userCreated, o2.userUpdated) = some (0, 0, 0, 0, 0, 0)
  rw [e1, e2, e3, e4, e5, e6]

end IamSync
